import Mathlib

/-!
Verification of the rtcpp threaded-binary-search-tree ordered set and its
node-stack pool allocator.

The embedding works at the pointer level: memory is a map from addresses
(natural numbers) to node records, and every C++ loop becomes a fuel-indexed
recursive function.  Three containers from the sources are embedded:

* `rt::set`  (src/rtcpp/memory/allocator.hpp) — `rtInsert`, `rtFind`,
  `rtCount`, `rtClear`, `rtToList`, `rtSetEq`, over a pool whose free list
  is abstracted to the list of block addresses threaded through it.
* `rtcpp::bst` (second part of src/src/tests/rt_dist_counting_sort.cpp) —
  `rcInsert`, which checks its allocator's null return instead of relying
  on an exception.
* the prototype `bst<T>` (src/unnamed/part_000) — `pInsert`, with its
  vector-backed pool whose avail stack is threaded through `llink`.

The node primitives (`bst_node`, tag bits, `attach_node_left/right`,
`has_null_llink/rlink`) live in headers that are not among the sources;
where that is the case the definition carries a doc comment starting with
`Modelled from the spec:`.  The prototype's `inorder_successor` and
`insert_node_left/right` are in the sources and are translated literally.

`node_stack` (src/memory/node_stack.hpp) is embedded at the byte-offset
level (`linkStack`, `nsCtor`) for the constructor claims.
-/

namespace Rt

/-- A threaded-BST node: key, left/right link and the 2-bit tag.
Modelled from the spec: `bst_node.hpp` is not among the sources; the layout
(key, llink, rlink, tag) follows section 3 of the spec and the prototype's
`node<T>` usage in src/unnamed/part_000. Addresses are naturals and `0`
plays the role of the null pointer where the sources use one. -/
structure Node (α : Type) where
  key : α
  llink : Nat
  rlink : Nat
  tag : Nat
deriving DecidableEq

/-- Memory: the contents of every node-sized slot, by address. -/
def Store (α : Type) : Type := Nat → Node α

/-- A single store write (the effect of one C++ field-group assignment). -/
def upd {α : Type} (σ : Store α) (a : Nat) (nd : Node α) : Store α :=
  fun x => if x = a then nd else σ x

/-- Modelled from the spec: `detail::lbit` — bit 1 of the tag marks `llink`
as a thread (spec section 3); the prototype writes the literal `2`. -/
def lbit : Nat := 2

/-- Modelled from the spec: `detail::rbit` — bit 0 of the tag marks `rlink`
as a thread. -/
def rbit : Nat := 1

/-- Modelled from the spec: `has_null_llink(tag)` is the LBIT test
(`tag & 2` in the prototype). -/
def hasNullL (t : Nat) : Bool := t &&& 2 != 0

/-- Modelled from the spec: `has_null_rlink(tag)` is the RBIT test
(`tag & 1` in the prototype). -/
def hasNullR (t : Nat) : Bool := t &&& 1 != 0

/-- The descent loop `while (!(q->tag & 2)) q = q->llink;` of
`bst::inorder_successor` (src/unnamed/part_000 lines 65-67), fuel-indexed. -/
def downLeft {α : Type} (σ : Store α) : Nat → Nat → Nat
  | 0, q => q
  | f+1, q => if hasNullL (σ q).tag then q else downLeft σ f (σ q).llink

/-- The mirror loop `while (!(q->tag & 1)) q = q->rlink;` of
`bst::inorder_predecessor` (src/unnamed/part_000 lines 78-80). -/
def downRight {α : Type} (σ : Store α) : Nat → Nat → Nat
  | 0, q => q
  | f+1, q => if hasNullR (σ q).tag then q else downRight σ f (σ q).rlink

/-- `bst::inorder_successor` (src/unnamed/part_000 lines 59-70); the same
primitive serves `rt::set` (its copy lives in the missing bst_iterator.hpp,
described identically in spec section 4.B). -/
def inorderSucc {α : Type} (σ : Store α) (f : Nat) (p : Nat) : Nat :=
  if hasNullR (σ p).tag then (σ p).rlink
  else downLeft σ f (σ p).rlink

/-- `bst::inorder_predecessor` (src/unnamed/part_000 lines 72-83). -/
def inorderPred {α : Type} (σ : Store α) (f : Nat) (p : Nat) : Nat :=
  if hasNullL (σ p).tag then (σ p).llink
  else downRight σ f (σ p).llink

/-- Modelled from the spec: `attach_node_left(parent, new_node)`
(spec section 4.B; bst_iterator.hpp is not among the sources).  The new
node inherits the parent's left thread and LBIT, threads right to the
parent with RBIT set, and the parent's llink becomes a real child link;
the tag arithmetic mirrors the prototype's `insert_node_left`. -/
def attachL {α : Type} (σ : Store α) (p q : Nat) : Store α :=
  let pn := σ p
  let σ1 := upd σ q { σ q with llink := pn.llink, rlink := p, tag := (pn.tag &&& 2) ||| 1 }
  upd σ1 p { pn with llink := q, tag := pn.tag &&& 1 }

/-- Modelled from the spec: `attach_node_right(parent, new_node)`
(spec section 4.B), mirror of `attachL`. -/
def attachR {α : Type} (σ : Store α) (p q : Nat) : Store α :=
  let pn := σ p
  let σ1 := upd σ q { σ q with rlink := pn.rlink, llink := p, tag := (pn.tag &&& 1) ||| 2 }
  upd σ1 p { pn with rlink := q, tag := pn.tag &&& 2 }

/-- Binary trees whose nodes carry the address of the slot holding them and
the key stored there: the abstraction of a pointer-level tree. -/
inductive ATree (α : Type) where
  | leaf : ATree α
  | node : ATree α → Nat → α → ATree α → ATree α

namespace ATree

def rootA {α : Type} : ATree α → Nat
  | .leaf => 0
  | .node _ a _ _ => a

def isLeaf {α : Type} : ATree α → Bool
  | .leaf => true
  | .node _ _ _ _ => false

def sizeA {α : Type} : ATree α → Nat
  | .leaf => 0
  | .node l _ _ r => l.sizeA + r.sizeA + 1

/-- Inorder sequence of the node addresses. -/
def inAddrs {α : Type} : ATree α → List Nat
  | .leaf => []
  | .node l a _ r => l.inAddrs ++ a :: r.inAddrs

/-- Inorder sequence of the keys. -/
def inKeys {α : Type} : ATree α → List α
  | .leaf => []
  | .node l _ k r => l.inKeys ++ k :: r.inKeys

/-- Address of the leftmost node (0 for the empty tree). -/
def leftA {α : Type} : ATree α → Nat
  | .leaf => 0
  | .node l a _ _ => if l.isLeaf then a else l.leftA

end ATree

/-- The representation predicate tying a store to an address tree:
each node holds its key; an empty subtree shows as a thread (tag bit set,
link aimed at the inorder neighbour — `pred` on the left, `succ` on the
right); a nonempty subtree shows as a child link to its root. -/
def reprB {α : Type} [DecidableEq α] (σ : Store α) : ATree α → Nat → Nat → Bool
  | .leaf, _, _ => true
  | .node l a k r, pred, succ =>
    ((σ a).key == k) &&
    (if l.isLeaf then hasNullL (σ a).tag && ((σ a).llink == pred)
     else !hasNullL (σ a).tag && ((σ a).llink == l.rootA) && reprB σ l pred a) &&
    (if r.isLeaf then hasNullR (σ a).tag && ((σ a).rlink == succ)
     else !hasNullR (σ a).tag && ((σ a).rlink == r.rootA) && reprB σ r a succ)

/-- The head sentinel's fields, as `rt::set`'s constructor and
`attach_node_left` leave them: `tag = lbit`, self-loops when empty;
`tag = 0`, llink the root, rlink still the self-loop when not. -/
def headOk {α : Type} (σ : Store α) (h : Nat) (t : ATree α) : Bool :=
  if t.isLeaf then ((σ h).tag == 2) && ((σ h).llink == h) && ((σ h).rlink == h)
  else ((σ h).tag == 0) && ((σ h).llink == t.rootA) && ((σ h).rlink == h)

/-- State of an `rt::set` (and of an `rtcpp::bst`): the store, the head
sentinel's address and the pool's free list, abstracted to the list of
block addresses in stack order (`node_stack::pop` takes the first,
`node_stack::push` prepends). -/
structure RtSet (α : Type) where
  store : Store α
  head : Nat
  free : List Nat

/-- Full representation invariant of a reachable `rt::set` state:
head sentinel well formed, tree represented, and the head, the tree nodes
and the free blocks pairwise distinct slots. -/
def SInv {α : Type} [DecidableEq α] (s : RtSet α) (t : ATree α) : Prop :=
  headOk s.store s.head t = true ∧
  reprB s.store t s.head s.head = true ∧
  (s.head :: t.inAddrs ++ s.free).Nodup

/-- Result of `rt::set::insert`: `ok` carries the new store, the new free
list, the returned cursor (a node address, the head meaning `end()`) and
the `inserted` flag; `oom` is `std::bad_alloc` propagating out of
`get_node` (the function catches nothing); `out` marks fuel exhaustion and
never arises from a represented state. -/
inductive InsRes (α : Type) where
  | out : InsRes α
  | oom : InsRes α
  | ok : Store α → List Nat → Nat → Bool → InsRes α

/-- The descent loop of `rt::set::insert`
(src/rtcpp/memory/allocator.hpp lines 373-396). -/
def rtInsLoop {α : Type} [DecidableEq α] (cmp : α → α → Bool) (σ : Store α)
    (free : List Nat) (key : α) : Nat → Nat → InsRes α
  | 0, _ => .out
  | f+1, p =>
    if cmp key (σ p).key then
      if !hasNullL (σ p).tag then rtInsLoop cmp σ free key f (σ p).llink
      else
        match free with
        | [] => .oom
        | q :: rest =>
          let σ1 := upd σ q { σ q with key := key }
          .ok (attachL σ1 p q) rest q true
    else if cmp (σ p).key key then
      if !hasNullR (σ p).tag then rtInsLoop cmp σ free key f (σ p).rlink
      else
        match free with
        | [] => .oom
        | q :: rest =>
          let σ1 := upd σ q { σ q with key := key }
          .ok (attachR σ1 p q) rest q true
    else .ok σ free p false

/-- `rt::set::insert` (src/rtcpp/memory/allocator.hpp lines 361-397):
empty-tree branch allocates, constructs and attaches under the head;
otherwise the descent loop runs from the root.  `get_node` on an empty
pool throws `std::bad_alloc` (`rt::allocator::allocate`, lines 106-112),
which `insert` does not catch — the `oom` result. -/
def rtInsert {α : Type} [DecidableEq α] (cmp : α → α → Bool) (s : RtSet α)
    (key : α) (f : Nat) : InsRes α :=
  if hasNullL (s.store s.head).tag then
    match s.free with
    | [] => .oom
    | q :: rest =>
      let σ1 := upd s.store q { s.store q with key := key }
      .ok (attachL σ1 s.head q) rest q true
  else rtInsLoop cmp s.store s.free key f (s.store s.head).llink

/-- The descent loop of `rt::set::find`
(src/rtcpp/memory/allocator.hpp lines 434-450); returns the head
(the end iterator) when a null link is hit. -/
def rtFindLoop {α : Type} [DecidableEq α] (cmp : α → α → Bool) (σ : Store α)
    (h : Nat) (key : α) : Nat → Nat → Nat
  | 0, p => p
  | f+1, p =>
    if cmp key (σ p).key then
      if !hasNullL (σ p).tag then rtFindLoop cmp σ h key f (σ p).llink else h
    else if cmp (σ p).key key then
      if !hasNullR (σ p).tag then rtFindLoop cmp σ h key f (σ p).rlink else h
    else p

/-- `rt::set::find` (src/rtcpp/memory/allocator.hpp lines 425-450). -/
def rtFind {α : Type} [DecidableEq α] (cmp : α → α → Bool) (s : RtSet α)
    (key : α) (f : Nat) : Nat :=
  if hasNullL (s.store s.head).tag then s.head
  else rtFindLoop cmp s.store s.head key f (s.store s.head).llink

/-- The descent loop of `rt::set::count`
(src/rtcpp/memory/allocator.hpp lines 407-422). -/
def rtCountLoop {α : Type} [DecidableEq α] (cmp : α → α → Bool) (σ : Store α)
    (key : α) : Nat → Nat → Nat
  | 0, _ => 0
  | f+1, p =>
    if cmp key (σ p).key then
      if !hasNullL (σ p).tag then rtCountLoop cmp σ key f (σ p).llink else 0
    else if cmp (σ p).key key then
      if !hasNullR (σ p).tag then rtCountLoop cmp σ key f (σ p).rlink else 0
    else 1

/-- `rt::set::count` (src/rtcpp/memory/allocator.hpp lines 399-423). -/
def rtCount {α : Type} [DecidableEq α] (cmp : α → α → Bool) (s : RtSet α)
    (key : α) (f : Nat) : Nat :=
  if hasNullL (s.store s.head).tag then 0
  else rtCountLoop cmp s.store key f (s.store s.head).llink

/-- Iterating the container: repeated `++cursor` (that is,
`inorder_successor`, spec section 4.D) until the head/end is reached,
collecting the keys. `sf` is the successor's own fuel, `n` the step fuel. -/
def iterK {α : Type} (σ : Store α) (h sf : Nat) : Nat → Nat → List α
  | 0, _ => []
  | n+1, p => if p = h then [] else (σ p).key :: iterK σ h sf n (inorderSucc σ sf p)

/-- `[begin(), end())` of an `rt::set` read into a list;
`begin()` is `inorder_successor(m_head)` (allocator.hpp line 201). -/
def rtToList {α : Type} (s : RtSet α) (sf n : Nat) : List α :=
  iterK s.store s.head sf n (inorderSucc s.store sf s.head)

/-- `rt::set::size`: `std::distance(begin(), end())`
(allocator.hpp line 207) — the number of `++` steps from begin to end. -/
def rtSize {α : Type} (s : RtSet α) (sf n : Nat) : Nat :=
  (rtToList s sf n).length

/-- `rt::set::empty`: `begin() == end()` (allocator.hpp line 208). -/
def rtEmpty {α : Type} (s : RtSet α) (sf : Nat) : Bool :=
  inorderSucc s.store sf s.head == s.head

/-- The loop of `rt::set::clear` (allocator.hpp lines 292-302): walk the
inorder successor chain from the head; for every `p` other than the head,
destroy `q->key` (`q` the successor! — recorded in the `des` trace) and
deallocate `p` (pushed on the free list and recorded in `dea`). -/
def clearLoop {α : Type} (σ : Store α) (h sf : Nat) :
    Nat → Nat → List Nat → List Nat → List Nat → List Nat × List Nat × List Nat
  | 0, _, free, des, dea => (free, des, dea)
  | f+1, p, free, des, dea =>
    let q := inorderSucc σ sf p
    let free' := if p = h then free else p :: free
    let des' := if p = h then des else des ++ [q]
    let dea' := if p = h then dea else dea ++ [p]
    if q = h then (free', des', dea')
    else clearLoop σ h sf f q free' des' dea'

/-- `rt::set::clear` (allocator.hpp lines 289-306): run the loop, then
reset the head's links and tag.  Besides the new state it returns the
trace of destroyed key slots and of deallocated nodes. -/
def rtClear {α : Type} (s : RtSet α) (sf f : Nat) : RtSet α × List Nat × List Nat :=
  let r := clearLoop s.store s.head sf f s.head s.free [] []
  (⟨upd s.store s.head { s.store s.head with llink := s.head, rlink := s.head, tag := 2 },
    s.head, r.1⟩, r.2.1, r.2.2)

/-- The `rt::set` constructor (allocator.hpp lines 265-274): `m_head`
comes from `get_node()` — the first pop of the free list (`none` models
the constructor failing on an empty pool) — and its links and tag are
reset; the head key slot keeps whatever the block held (uninitialized). -/
def rtNew {α : Type} (σ : Store α) (free : List Nat) : Option (RtSet α) :=
  match free with
  | [] => none
  | h :: rest =>
    some ⟨upd σ h { σ h with llink := h, rlink := h, tag := 2 }, h, rest⟩

/-- The walk of `std::equal(begin(lhs), end(lhs), begin(rhs))` inside
`operator==` (allocator.hpp line 468): advance both cursors, comparing
keys with the element `operator==`, until the left range is exhausted.
The right cursor is not checked against its own end. -/
def stdEqualLoop {α : Type} [DecidableEq α] (σ1 : Store α) (h1 : Nat)
    (σ2 : Store α) (sf : Nat) : Nat → Nat → Nat → Bool
  | 0, _, _ => true
  | n+1, p1, p2 =>
    if p1 = h1 then true
    else ((σ1 p1).key == (σ2 p2).key) &&
      stdEqualLoop σ1 h1 σ2 sf n (inorderSucc σ1 sf p1) (inorderSucc σ2 sf p2)

/-- `operator==(const set&, const set&)` (allocator.hpp lines 463-473):
`lhs.size() == rhs.size()` and the `std::equal` element walk. -/
def rtSetEq {α : Type} [DecidableEq α] (A B : RtSet α) (sf n : Nat) : Bool :=
  (rtSize A sf n == rtSize B sf n) &&
  stdEqualLoop A.store A.head B.store sf n
    (inorderSucc A.store sf A.head) (inorderSucc B.store sf B.head)

/-- Insert a whole sequence (`set::insert(first, last)`,
allocator.hpp lines 452-461), collecting the `inserted` flags; `none`
when an insert threw or ran out of fuel. -/
def rtRun {α : Type} [DecidableEq α] (cmp : α → α → Bool) (f : Nat) :
    RtSet α → List α → Option (RtSet α × List Bool)
  | s, [] => some (s, [])
  | s, k :: ks =>
    match rtInsert cmp s k f with
    | .ok σ' free' _ ins =>
      match rtRun cmp f ⟨σ', s.head, free'⟩ ks with
      | some (s', flags) => some (s', ins :: flags)
      | none => none
    | _ => none

/-- Result of `rtcpp::bst::insert`: the cursor is `some` address, or
`none` for the default-constructed `const_iterator()` the function
returns on pool exhaustion. -/
inductive RcRes (α : Type) where
  | out : RcRes α
  | ok : RtSet α → Option Nat → Bool → RcRes α

/-- The descent loop of `rtcpp::bst::insert`
(src/src/tests/rt_dist_counting_sort.cpp lines 203-231).  Allocation is
the allocator's forward to `node_stack::pop` — modelled from the spec
(utility/allocator.hpp is not among the sources; spec sections 4.A/4.E:
a null slot signals exhaustion).  On a null slot the function returns
`(const_iterator(), false)` with nothing mutated; note `attach_node_left`
runs before the key is constructed in this container. -/
def rcInsLoop {α : Type} [DecidableEq α] (cmp : α → α → Bool) (σ : Store α)
    (h : Nat) (free : List Nat) (key : α) : Nat → Nat → RcRes α
  | 0, _ => .out
  | f+1, p =>
    if cmp key (σ p).key then
      if !hasNullL (σ p).tag then rcInsLoop cmp σ h free key f (σ p).llink
      else
        match free with
        | [] => .ok ⟨σ, h, []⟩ none false
        | q :: rest =>
          let σa := attachL σ p q
          .ok ⟨upd σa q { σa q with key := key }, h, rest⟩ (some q) true
    else if cmp (σ p).key key then
      if !hasNullR (σ p).tag then rcInsLoop cmp σ h free key f (σ p).rlink
      else
        match free with
        | [] => .ok ⟨σ, h, []⟩ none false
        | q :: rest =>
          let σa := attachR σ p q
          .ok ⟨upd σa q { σa q with key := key }, h, rest⟩ (some q) true
    else .ok ⟨σ, h, free⟩ (some p) false

/-- `rtcpp::bst::insert` (src/src/tests/rt_dist_counting_sort.cpp lines
187-232). -/
def rcInsert {α : Type} [DecidableEq α] (cmp : α → α → Bool) (s : RtSet α)
    (key : α) (f : Nat) : RcRes α :=
  if hasNullL (s.store s.head).tag then
    match s.free with
    | [] => .ok s none false
    | q :: rest =>
      let σa := attachL s.store s.head q
      .ok ⟨upd σa q { σa q with key := key }, s.head, rest⟩ (some q) true
  else rcInsLoop cmp s.store s.head s.free key f (s.store s.head).llink

/-- Repeated `rtcpp::bst::insert`, collecting flags. -/
def rcRun {α : Type} [DecidableEq α] (cmp : α → α → Bool) (f : Nat) :
    RtSet α → List α → Option (RtSet α × List Bool)
  | s, [] => some (s, [])
  | s, k :: ks =>
    match rcInsert cmp s k f with
    | .ok s' _ ins =>
      match rcRun cmp f s' ks with
      | some (s'', flags) => some (s'', ins :: flags)
      | none => none
    | .out => none

/-- State of the prototype `bst<T>` (src/unnamed/part_000): its own pool
is part of the store, `avail` is the pointer to the top of the avail
stack threaded through `llink` (0 = null). -/
structure PBst (α : Type) where
  store : Store α
  head : Nat
  avail : Nat

/-- The avail stack of the prototype, read back as the list of block
addresses it threads through `llink` (`avail = avail->llink` pops). -/
def availRepr {α : Type} (σ : Store α) : Nat → List Nat → Bool
  | a, [] => a == 0
  | a, q :: rest => (a == q) && (q != 0) && availRepr σ (σ q).llink rest

/-- The avail-stack linking loop of the prototype's constructor
(src/unnamed/part_000 lines 98-101): after `pLinkChain σ m`, block `i+1`
(address `i+1`, for `1 ≤ i ≤ m`) has `llink = i` and `rlink = 0`. -/
def pLinkChain {α : Type} (σ : Store α) : Nat → Store α
  | 0 => σ
  | i+1 =>
    let σp := pLinkChain σ i
    upd σp (i+2) { σp (i+2) with llink := i+1, rlink := 0 }

/-- The prototype constructor `bst(reserve_n)` (src/unnamed/part_000
lines 85-103): pool blocks live at addresses `1..n`, the head node at
`n+1`; `head.tag = 2`, self-loops; `pool[0].llink = 0`; `pool[i].llink =
&pool[i-1]`; `avail = &pool.back()`. -/
def pNew {α : Type} (σ : Store α) (reserveN : Nat) : PBst α :=
  let n := if reserveN = 0 then 1 else reserveN
  let h := n + 1
  let σ1 := upd σ h { σ h with llink := h, rlink := h, tag := 2 }
  let σ2 := upd σ1 1 { σ1 1 with llink := 0, rlink := 0 }
  ⟨pLinkChain σ2 (n - 1), h, n⟩

/-- `bst::insert_node_left` (src/unnamed/part_000 lines 130-152),
translated write for write: pop the avail stack, set the new node's key,
inherit the parent's left thread and LBIT, hook it under the parent,
thread it right to the parent, and run the predecessor fix-up when the
new node adopted a real left subtree. -/
def pInsL {α : Type} (s : PBst α) (p : Nat) (key : α) (sf : Nat) :
    PBst α × Nat × Bool :=
  if s.avail = 0 then (s, s.head, false)
  else
    let q := s.avail
    let av' := (s.store q).llink
    let σ1 := upd s.store q { s.store q with key := key }
    let σ2 := upd σ1 q { σ1 q with llink := (σ1 p).llink }
    let σ3 := upd σ2 q { σ2 q with tag := ((σ2 q).tag &&& 1) ||| ((σ2 p).tag &&& 2) }
    let σ4 := upd σ3 p { σ3 p with llink := q }
    let σ5 := upd σ4 p { σ4 p with tag := (σ4 p).tag &&& 1 }
    let σ6 := upd σ5 q { σ5 q with rlink := p }
    let σ7 := upd σ6 q { σ6 q with tag := (σ6 q).tag ||| 1 }
    if !hasNullL (σ7 q).tag then
      let qs := inorderPred σ7 sf q
      (⟨upd σ7 qs { σ7 qs with rlink := q }, s.head, av'⟩, q, true)
    else (⟨σ7, s.head, av'⟩, q, true)

/-- `bst::insert_node_right` (src/unnamed/part_000 lines 105-128),
mirror of `pInsL` with the successor fix-up. -/
def pInsR {α : Type} (s : PBst α) (p : Nat) (key : α) (sf : Nat) :
    PBst α × Nat × Bool :=
  if s.avail = 0 then (s, s.head, false)
  else
    let q := s.avail
    let av' := (s.store q).llink
    let σ1 := upd s.store q { s.store q with key := key }
    let σ2 := upd σ1 q { σ1 q with rlink := (σ1 p).rlink }
    let σ3 := upd σ2 q { σ2 q with tag := ((σ2 q).tag &&& 2) ||| ((σ2 p).tag &&& 1) }
    let σ4 := upd σ3 p { σ3 p with rlink := q }
    let σ5 := upd σ4 p { σ4 p with tag := (σ4 p).tag &&& 2 }
    let σ6 := upd σ5 q { σ5 q with llink := p }
    let σ7 := upd σ6 q { σ6 q with tag := (σ6 q).tag ||| 2 }
    if !hasNullR (σ7 q).tag then
      let qs := inorderSucc σ7 sf q
      (⟨upd σ7 qs { σ7 qs with llink := q }, s.head, av'⟩, q, true)
    else (⟨σ7, s.head, av'⟩, q, true)

/-- Result of the prototype's `insert`. -/
inductive PRes (α : Type) where
  | out : PRes α
  | ok : PBst α → Nat → Bool → PRes α

/-- The descent loop of the prototype's `bst::insert`
(src/unnamed/part_000 lines 160-177); comparisons are `key < p->key`
and `key > p->key` of the key type. -/
def pInsLoop {α : Type} [LinearOrder α] (s : PBst α) (key : α) (sf : Nat) :
    Nat → Nat → PRes α
  | 0, _ => .out
  | f+1, p =>
    if decide (key < (s.store p).key) then
      if !hasNullL (s.store p).tag then pInsLoop s key sf f (s.store p).llink
      else
        let r := pInsL s p key sf
        .ok r.1 r.2.1 r.2.2
    else if decide (key > (s.store p).key) then
      if !hasNullR (s.store p).tag then pInsLoop s key sf f (s.store p).rlink
      else
        let r := pInsR s p key sf
        .ok r.1 r.2.1 r.2.2
    else .ok s p false

/-- The prototype's `bst::insert` (src/unnamed/part_000 lines 154-178). -/
def pInsert {α : Type} [LinearOrder α] (s : PBst α) (key : α) (sf f : Nat) : PRes α :=
  if hasNullL (s.store s.head).tag then
    let r := pInsL s s.head key sf
    .ok r.1 r.2.1 r.2.2
  else pInsLoop s key sf f (s.store s.head).llink

/-- The prototype's `bst::begin` (src/unnamed/part_000 lines 37-46):
descend `llink` from `head.llink` while LBIT is clear. -/
def pBegin {α : Type} (s : PBst α) (sf : Nat) : Nat :=
  downLeft s.store sf (s.store s.head).llink

/-- `[begin(), end())` of the prototype, via the inorder iterator whose
`++` is `inorder_successor` (inorder_iterator.hpp is not among the
sources; modelled from the spec, section 4.D). -/
def pToList {α : Type} (s : PBst α) (sf n : Nat) : List α :=
  iterK s.store s.head sf n (pBegin s sf)

/-- Repeated prototype insert, collecting flags. -/
def pRun {α : Type} [LinearOrder α] (sf f : Nat) :
    PBst α → List α → Option (PBst α × List Bool)
  | s, [] => some (s, [])
  | s, k :: ks =>
    match pInsert s k sf f with
    | .ok s' _ ins =>
      match pRun sf f s' ks with
      | some (s'', flags) => some (s'', ins :: flags)
      | .none => none
    | .out => none

/-- Representation invariant of a reachable prototype state: tree
represented, head well formed, avail stack threading the free blocks, all
slots distinct and no address 0 (the null pointer) among them. -/
def PInv {α : Type} [DecidableEq α] (s : PBst α) (t : ATree α) (fl : List Nat) : Prop :=
  headOk s.store s.head t = true ∧
  reprB s.store t s.head s.head = true ∧
  availRepr s.store s.avail fl = true ∧
  (s.head :: t.inAddrs ++ fl).Nodup ∧
  0 ∉ s.head :: t.inAddrs ++ fl

/-- Pure search mirroring the comparison structure of every `insert`,
`find` and `count` loop: the address and key of the node equivalent to
`key`, or `none` (reaching a thread). -/
def tFound {α : Type} (cmp : α → α → Bool) (key : α) : ATree α → Option (Nat × α)
  | .leaf => none
  | .node l a k r =>
    if cmp key k then (if l.isLeaf then none else tFound cmp key l)
    else if cmp k key then (if r.isLeaf then none else tFound cmp key r)
    else some (a, k)

/-- The tree grown by a successful insert: the fresh node (address `q`)
replaces the thread the descent ran into. -/
def tInsT {α : Type} (cmp : α → α → Bool) (key : α) (q : Nat) : ATree α → ATree α
  | .leaf => .node .leaf q key .leaf
  | .node l a k r =>
    if cmp key k then
      if l.isLeaf then .node (.node .leaf q key .leaf) a k r
      else .node (tInsT cmp key q l) a k r
    else if cmp k key then
      if r.isLeaf then .node l a k (.node .leaf q key .leaf)
      else .node l a k (tInsT cmp key q r)
    else .node l a k r

/-- Every key of the tree satisfies `P`. -/
def allT {α : Type} (P : α → Prop) : ATree α → Prop
  | .leaf => True
  | .node l _ k r => allT P l ∧ P k ∧ allT P r

/-- Search-tree property under the comparator. -/
def bstP {α : Type} (cmp : α → α → Bool) : ATree α → Prop
  | .leaf => True
  | .node l _ k r =>
    bstP cmp l ∧ bstP cmp r ∧
    allT (fun x => cmp x k = true) l ∧ allT (fun x => cmp k x = true) r

/-- Comparator equivalence `!comp(a,b) && !comp(b,a)` (spec section 6). -/
def equivC {α : Type} (cmp : α → α → Bool) (x y : α) : Prop :=
  cmp x y = false ∧ cmp y x = false

/-- The successor chain: starting anywhere in `l`, `inorder_successor`
steps to the next entry, and from the last one to `succ`. -/
def chainS {α : Type} (σ : Store α) (f : Nat) : List Nat → Nat → Prop
  | [], _ => True
  | a :: rest, succ =>
    inorderSucc σ f a = rest.headD succ ∧ chainS σ f rest succ

/-- Address-free view of a tree: shape and keys only. -/
inductive KTree (α : Type) where
  | leaf : KTree α
  | node : KTree α → α → KTree α → KTree α
deriving DecidableEq

def eraseA {α : Type} : ATree α → KTree α
  | .leaf => .leaf
  | .node l _ k r => .node (eraseA l) k (eraseA r)

/-- The writes of `link_stack`'s for-loop (src/memory/node_stack.hpp
lines 23-29): after `linkWrites S base m w`, the word at `base + i*S`
holds `base + (i-1)*S` for `1 ≤ i ≤ m`. -/
def linkWrites (S base : Nat) : Nat → (Nat → Nat) → (Nat → Nat)
  | 0, w => w
  | j+1, w =>
    fun off => if off = base + (j+1) * S then base + j * S
               else linkWrites S base j w off

/-- `rt::link_stack<S>` (src/memory/node_stack.hpp lines 10-33) over the
word-at-byte-offset view of the buffer: thread `n / S` blocks based at
`base` into a free list (each block's first word holds the previous
block's address, the bottom one 0) and return the new words together
with the top-of-stack address (0 when fewer than 2 blocks fit). -/
def linkStack (S : Nat) (w : Nat → Nat) (base n : Nat) : (Nat → Nat) × Nat :=
  let m := n / S
  if m < 2 then (w, 0)
  else
    let w1 := linkWrites S base (m - 1) w
    (fun off => if off = base then 0 else w1 off, base + (m - 1) * S)

/-- Failure modes of the `node_stack` constructor. -/
inductive NsErr where
  | noSpace : NsErr
  | wrongSize : NsErr
deriving DecidableEq

/-- A `node_stack` buffer: `P` the pointer size in bytes, `n` the byte
length, `w` the machine word stored at each byte offset. -/
structure NsState where
  P : Nat
  n : Nat
  w : Nat → Nat

/-- The `node_stack<S>` constructor (src/memory/node_stack.hpp lines
59-93): reject a buffer shorter than `3*P + 2*S`; if the link-count word
(offset 0) is non-zero, reject a recorded block size (offset `3*P`)
other than `S` and otherwise only bump the count; on the 0 → 1
transition, link the blocks based at `2*P`, store the top at offset `P`
and the size `S` at offset `3*P`, then write the count 1. -/
def nsCtor (S : Nat) (st : NsState) : Except NsErr NsState :=
  if st.n < 3 * st.P + 2 * S then .error .noSpace
  else
    let counter := st.w 0
    if counter ≠ 0 then
      if st.w (3 * st.P) ≠ S then .error .wrongSize
      else .ok ⟨st.P, st.n, fun off => if off = 0 then counter + 1 else st.w off⟩
    else
      let r := linkStack S st.w (2 * st.P) (st.n - 2 * st.P)
      let w2 := fun off => if off = st.P then r.2 else r.1 off
      let w3 := fun off => if off = 3 * st.P then S else w2 off
      .ok ⟨st.P, st.n, fun off => if off = 0 then 1 else w3 off⟩

/-- `node_stack::pop` (src/memory/node_stack.hpp lines 95-104) on the
word view: read the top word (offset `P`); when non-null, move the
popped block's first word into the top word. -/
def nsPop (st : NsState) : NsState × Nat :=
  let q := st.w st.P
  if q = 0 then (st, 0)
  else (⟨st.P, st.n, fun off => if off = st.P then st.w q else st.w off⟩, q)

/-- `node_stack::push` (src/memory/node_stack.hpp lines 106-114) on the
word view: store the old top in `p`'s first word, make `p` the top. -/
def nsPush (st : NsState) (p : Nat) : NsState :=
  if p = 0 then st
  else ⟨st.P, st.n,
    fun off => if off = st.P then p else if off = p then st.w st.P else st.w off⟩

/-- `<` on the integers as a comparator (`std::less<int>`). -/
def cmpInt : Int → Int → Bool := fun a b => decide (a < b)

/-- A strict weak order comparing integers by absolute value; its
equivalence classes identify `x` and `-x`. -/
def cmpAbs : Int → Int → Bool := fun a b => decide (a.natAbs < b.natAbs)

/-- An all-zero backing store standing for uninitialized buffer memory. -/
def σ0 : Store Int := fun _ => ⟨0, 0, 0, 0⟩

/-- Fixture: the state `rt::set`'s constructor builds over the all-zero
buffer with head block `h` and remaining free blocks `rest`. -/
def mkIntSet (h : Nat) (rest : List Nat) : RtSet Int :=
  ⟨upd σ0 h { σ0 h with llink := h, rlink := h, tag := 2 }, h, rest⟩

/-- Fixture: the store of `mkIntSet 10 [11]` after `insert(5)` spent
block 11 on the single tree node. -/
def c3s1 : Store Int :=
  attachL (upd (mkIntSet 10 [11]).store 11
    { (mkIntSet 10 [11]).store 11 with key := (5 : Int) }) 10 11

/-- Fixture: a zeroed 200-byte buffer with 8-byte pointers. -/
def nsFixture : NsState := ⟨8, 200, fun _ => 0⟩

/-- Fixture: an empty prototype tree with head slot 10 and the two free
blocks 11 and 12 threaded on the avail stack. -/
def c10s : PBst Int :=
  ⟨upd (upd σ0 10 { σ0 10 with llink := 10, rlink := 10, tag := 2 })
    11 { σ0 11 with llink := 12 }, 10, 11⟩

/-- Fixture: the store of a set over blocks 10 (head) and 11 after
inserting 1 under the absolute-value comparator. -/
def c8A : Store Int :=
  attachL (upd (mkIntSet 10 [11]).store 11
    { (mkIntSet 10 [11]).store 11 with key := (1 : Int) }) 10 11

/-- Fixture: the store of a set over blocks 20 (head) and 21 after
inserting -1 under the absolute-value comparator. -/
def c8B : Store Int :=
  attachL (upd (mkIntSet 20 [21]).store 21
    { (mkIntSet 20 [21]).store 21 with key := (-1 : Int) }) 20 21

theorem upd_apply {α : Type} (σ : Store α) (a : Nat) (nd : Node α) (x : Nat) :
    upd σ a nd x = if x = a then nd else σ x := rfl

theorem upd_self {α : Type} (σ : Store α) (a : Nat) (nd : Node α) :
    upd σ a nd a = nd := by simp [upd_apply]

theorem upd_other {α : Type} (σ : Store α) (a : Nat) (nd : Node α) {x : Nat}
    (h : x ≠ a) : upd σ a nd x = σ x := by simp [upd_apply, h]

theorem hasNullL_testBit (t : Nat) : hasNullL t = t.testBit 1 := by
  have h : t &&& 2 ^ 1 = (t.testBit 1).toNat * 2 ^ 1 := Nat.and_two_pow t 1
  norm_num at h
  simp only [hasNullL, h]
  cases t.testBit 1 <;> simp

theorem hasNullR_testBit (t : Nat) : hasNullR t = t.testBit 0 := by
  simp only [hasNullR, Nat.and_one_is_mod, Nat.testBit_zero]
  rcases Nat.mod_two_eq_zero_or_one t with h | h <;> simp [h]

theorem hasNullL_lor (a b : Nat) : hasNullL (a ||| b) = (hasNullL a || hasNullL b) := by
  simp [hasNullL_testBit, Nat.testBit_or]

theorem hasNullR_lor (a b : Nat) : hasNullR (a ||| b) = (hasNullR a || hasNullR b) := by
  simp [hasNullR_testBit, Nat.testBit_or]

theorem hasNullL_land (a b : Nat) : hasNullL (a &&& b) = (hasNullL a && hasNullL b) := by
  simp [hasNullL_testBit, Nat.testBit_and]

theorem hasNullR_land (a b : Nat) : hasNullR (a &&& b) = (hasNullR a && hasNullR b) := by
  simp [hasNullR_testBit, Nat.testBit_and]

theorem hasNullL_one : hasNullL 1 = false := by decide

theorem hasNullL_two : hasNullL 2 = true := by decide

theorem hasNullR_one : hasNullR 1 = true := by decide

theorem hasNullR_two : hasNullR 2 = false := by decide

theorem land_one_cases (x : Nat) : x &&& 1 = 0 ∨ x &&& 1 = 1 := by
  simp only [Nat.and_one_is_mod]
  exact Nat.mod_two_eq_zero_or_one x

theorem lor_one_absorb (x y : Nat) (hx : x &&& 1 = 0 ∨ x &&& 1 = 1) :
    ((x &&& 1) ||| y) ||| 1 = y ||| 1 := by
  rcases hx with h | h <;> rw [h]
  · rw [Nat.zero_or]
  · rw [Nat.lor_comm 1 y, Nat.lor_assoc, Nat.or_self]

theorem land_two_cases (x : Nat) : x &&& 2 = 0 ∨ x &&& 2 = 2 := by
  have h : x &&& 2 ^ 1 = (x.testBit 1).toNat * 2 ^ 1 := Nat.and_two_pow x 1
  norm_num at h
  cases hx : x.testBit 1 <;> simp [hx] at h <;> simp [h]

theorem lor_two_absorb (x y : Nat) (hx : x &&& 2 = 0 ∨ x &&& 2 = 2) :
    ((x &&& 2) ||| y) ||| 2 = y ||| 2 := by
  rcases hx with h | h <;> rw [h]
  · rw [Nat.zero_or]
  · rw [Nat.lor_comm 2 y, Nat.lor_assoc, Nat.or_self]

/-- The tag `attach_node_left` gives the new node keeps the parent's LBIT. -/
theorem hasNullL_attachLtag (t : Nat) : hasNullL ((t &&& 2) ||| 1) = hasNullL t := by
  simp [hasNullL_lor, hasNullL_land, hasNullL_one, hasNullL_two]

theorem hasNullR_attachLtag (t : Nat) : hasNullR ((t &&& 2) ||| 1) = true := by
  simp [hasNullR_lor, hasNullR_one]

theorem hasNullL_attachRtag (t : Nat) : hasNullL ((t &&& 1) ||| 2) = true := by
  simp [hasNullL_lor, hasNullL_two]

theorem hasNullR_attachRtag (t : Nat) : hasNullR ((t &&& 1) ||| 2) = hasNullR t := by
  rw [hasNullR_lor, hasNullR_land, hasNullR_one, hasNullR_two,
    Bool.and_true, Bool.or_false]

theorem hasNullL_clearL (t : Nat) : hasNullL (t &&& 1) = false := by
  rw [hasNullL_land, hasNullL_one, Bool.and_false]

theorem hasNullR_clearL (t : Nat) : hasNullR (t &&& 1) = hasNullR t := by
  rw [hasNullR_land, hasNullR_one, Bool.and_true]

theorem hasNullL_clearR (t : Nat) : hasNullL (t &&& 2) = hasNullL t := by
  rw [hasNullL_land, hasNullL_two, Bool.and_true]

theorem hasNullR_clearR (t : Nat) : hasNullR (t &&& 2) = false := by
  rw [hasNullR_land, hasNullR_two, Bool.and_false]

theorem attachL_at_q {α : Type} (σ : Store α) {p q : Nat} (hpq : p ≠ q) :
    attachL σ p q q =
      { σ q with llink := (σ p).llink, rlink := p, tag := ((σ p).tag &&& 2) ||| 1 } := by
  simp [attachL, upd_apply, hpq, Ne.symm hpq]

theorem attachL_at_p {α : Type} (σ : Store α) (p q : Nat) :
    attachL σ p q p = { σ p with llink := q, tag := (σ p).tag &&& 1 } := by
  simp [attachL, upd_apply]

theorem attachL_at_other {α : Type} (σ : Store α) {p q x : Nat}
    (hxp : x ≠ p) (hxq : x ≠ q) : attachL σ p q x = σ x := by
  simp [attachL, upd_apply, hxp, hxq]

theorem attachR_at_q {α : Type} (σ : Store α) {p q : Nat} (hpq : p ≠ q) :
    attachR σ p q q =
      { σ q with rlink := (σ p).rlink, llink := p, tag := ((σ p).tag &&& 1) ||| 2 } := by
  simp [attachR, upd_apply, hpq, Ne.symm hpq]

theorem attachR_at_p {α : Type} (σ : Store α) (p q : Nat) :
    attachR σ p q p = { σ p with rlink := q, tag := (σ p).tag &&& 2 } := by
  simp [attachR, upd_apply]

theorem attachR_at_other {α : Type} (σ : Store α) {p q x : Nat}
    (hxp : x ≠ p) (hxq : x ≠ q) : attachR σ p q x = σ x := by
  simp [attachR, upd_apply, hxp, hxq]

theorem isLeaf_iff {α : Type} {t : ATree α} : t.isLeaf = true ↔ t = .leaf := by
  cases t <;> simp [ATree.isLeaf]

theorem isLeaf_false_iff {α : Type} {t : ATree α} : t.isLeaf = false ↔ t ≠ .leaf := by
  cases t <;> simp [ATree.isLeaf]

theorem length_inAddrs {α : Type} (t : ATree α) : t.inAddrs.length = t.sizeA := by
  induction t with
  | leaf => rfl
  | node l a k r ihl ihr => simp [ATree.inAddrs, ATree.sizeA, ihl, ihr]; omega

theorem length_inKeys {α : Type} (t : ATree α) : t.inKeys.length = t.sizeA := by
  induction t with
  | leaf => rfl
  | node l a k r ihl ihr => simp [ATree.inKeys, ATree.sizeA, ihl, ihr]; omega

theorem inAddrs_ne_nil {α : Type} {t : ATree α} (h : t.isLeaf = false) :
    t.inAddrs ≠ [] := by
  cases t with
  | leaf => simp [ATree.isLeaf] at h
  | node l a k r => simp [ATree.inAddrs]

theorem headD_append {α : Type} (u v : List α) (s : α) :
    (u ++ v).headD s = u.headD (v.headD s) := by
  cases u <;> simp

theorem leftA_headD {α : Type} {t : ATree α} (h : t.isLeaf = false) (d : Nat) :
    t.inAddrs.headD d = t.leftA := by
  induction t generalizing d with
  | leaf => simp [ATree.isLeaf] at h
  | node l a k r ihl _ =>
    cases hl : l.isLeaf with
    | true =>
      rw [isLeaf_iff] at hl
      subst hl
      simp [ATree.inAddrs, ATree.leftA, ATree.isLeaf]
    | false =>
      simp only [ATree.inAddrs, ATree.leftA, hl, Bool.false_eq_true, if_false]
      rw [headD_append]
      exact ihl hl _

/-- Unfolding of `reprB` at a node, in propositional form. -/
theorem reprB_node {α : Type} [DecidableEq α] {σ : Store α} {l : ATree α} {a : Nat}
    {k : α} {r : ATree α} {pred succ : Nat} :
    reprB σ (.node l a k r) pred succ = true ↔
      ((σ a).key = k) ∧
      (if l.isLeaf then hasNullL (σ a).tag = true ∧ (σ a).llink = pred
       else hasNullL (σ a).tag = false ∧ (σ a).llink = l.rootA ∧ reprB σ l pred a = true) ∧
      (if r.isLeaf then hasNullR (σ a).tag = true ∧ (σ a).rlink = succ
       else hasNullR (σ a).tag = false ∧ (σ a).rlink = r.rootA ∧ reprB σ r a succ = true) := by
  cases hl : l.isLeaf <;> cases hr : r.isLeaf <;>
    simp [reprB, hl, hr, Bool.and_eq_true, beq_iff_eq, and_assoc]

theorem reprB_congr {α : Type} [DecidableEq α] {σ σ' : Store α} :
    ∀ (t : ATree α) (pred succ : Nat), (∀ x ∈ t.inAddrs, σ' x = σ x) →
      reprB σ' t pred succ = reprB σ t pred succ := by
  intro t
  induction t with
  | leaf => intro _ _ _; rfl
  | node l a k r ihl ihr =>
    intro pred succ h
    have ha : σ' a = σ a := h a (by simp [ATree.inAddrs])
    have hl' : ∀ x ∈ l.inAddrs, σ' x = σ x := by
      intro x hx
      exact h x (by simp [ATree.inAddrs, hx])
    have hr' : ∀ x ∈ r.inAddrs, σ' x = σ x := by
      intro x hx
      exact h x (by simp [ATree.inAddrs, hx])
    simp only [reprB, ha, ihl pred a hl', ihr a succ hr']

theorem headOk_congr {α : Type} {σ σ' : Store α} {h : Nat} {t : ATree α}
    (hσ : σ' h = σ h) : headOk σ' h t = headOk σ h t := by
  simp only [headOk, hσ]

theorem downLeft_leftmost {α : Type} [DecidableEq α] {σ : Store α} :
    ∀ (t : ATree α) (pred succ f : Nat), reprB σ t pred succ = true →
      t.isLeaf = false → t.sizeA ≤ f → downLeft σ f t.rootA = t.leftA := by
  intro t
  induction t with
  | leaf => intro _ _ _ _ h _; simp [ATree.isLeaf] at h
  | node l a k r ihl _ =>
    intro pred succ f hrepr _ hf
    obtain ⟨f', rfl⟩ : ∃ f', f = f' + 1 := ⟨f - 1, by simp [ATree.sizeA] at hf; omega⟩
    rcases reprB_node.mp hrepr with ⟨_, hL, _⟩
    cases hl : l.isLeaf with
    | true =>
      rw [hl, if_pos rfl] at hL
      simp [ATree.rootA, ATree.leftA, downLeft, hL.1, hl]
    | false =>
      rw [hl, if_neg Bool.false_ne_true] at hL
      simp only [ATree.rootA, ATree.leftA, downLeft, hL.1, hl, Bool.false_eq_true,
        if_false, hL.2.1]
      exact ihl pred a f' hL.2.2 hl (by simp [ATree.sizeA] at hf; omega)

theorem chainS_append {α : Type} {σ : Store α} {f : Nat} :
    ∀ (u v : List Nat) (s : Nat),
      chainS σ f (u ++ v) s ↔ chainS σ f u (v.headD s) ∧ chainS σ f v s := by
  intro u
  induction u with
  | nil => intro v s; simp [chainS]
  | cons a u ih =>
    intro v s
    simp only [List.cons_append, chainS, List.append_eq]
    rw [ih, headD_append]
    tauto

/-- Inside a represented subtree, `inorder_successor` steps along the
inorder address sequence and exits to `succ`. -/
theorem repr_chain {α : Type} [DecidableEq α] {σ : Store α} :
    ∀ (t : ATree α) (pred succ f : Nat), reprB σ t pred succ = true →
      t.sizeA + 1 ≤ f → chainS σ f t.inAddrs succ := by
  intro t
  induction t with
  | leaf => intro _ _ _ _ _; trivial
  | node l a k r ihl ihr =>
    intro pred succ f hrepr hf
    rcases reprB_node.mp hrepr with ⟨_, hL, hR⟩
    have hfl : l.sizeA + 1 ≤ f := by simp [ATree.sizeA] at hf; omega
    have hfr : r.sizeA + 1 ≤ f := by simp [ATree.sizeA] at hf; omega
    simp only [ATree.inAddrs]
    rw [chainS_append]
    refine ⟨?_, ?_, ?_⟩
    · simp only [List.headD_cons]
      cases hl : l.isLeaf with
      | true =>
        rw [isLeaf_iff] at hl
        subst hl
        trivial
      | false =>
        rw [hl, if_neg Bool.false_ne_true] at hL
        exact ihl pred a f hL.2.2 hfl
    · show inorderSucc σ f a = r.inAddrs.headD succ
      cases hr : r.isLeaf with
      | true =>
        rw [hr, if_pos rfl] at hR
        rw [isLeaf_iff] at hr
        subst hr
        simp [inorderSucc, ATree.inAddrs, hR.1, hR.2]
      | false =>
        rw [hr, if_neg Bool.false_ne_true] at hR
        rw [leftA_headD hr]
        simp only [inorderSucc, hR.1, Bool.false_eq_true, if_false, hR.2.1]
        exact downLeft_leftmost r a succ f hR.2.2 hr (by omega)
    · cases hr : r.isLeaf with
      | true =>
        rw [isLeaf_iff] at hr
        subst hr
        trivial
      | false =>
        rw [hr, if_neg Bool.false_ne_true] at hR
        exact ihr a succ f hR.2.2 hfr

theorem hasNullL_zero : hasNullL 0 = false := by decide

theorem hasNullR_zero : hasNullR 0 = false := by decide

theorem headD_mem {α : Type} {l : List α} (h : l ≠ []) (d : α) : l.headD d ∈ l := by
  cases l with
  | nil => exact absurd rfl h
  | cons a l => simp

theorem headOk_leaf {α : Type} {σ : Store α} {h : Nat} {t : ATree α}
    (hl : t.isLeaf = true) : headOk σ h t = true ↔
      (σ h).tag = 2 ∧ (σ h).llink = h ∧ (σ h).rlink = h := by
  simp [headOk, hl, Bool.and_eq_true, beq_iff_eq, and_assoc]

theorem headOk_node {α : Type} {σ : Store α} {h : Nat} {t : ATree α}
    (hl : t.isLeaf = false) : headOk σ h t = true ↔
      (σ h).tag = 0 ∧ (σ h).llink = t.rootA ∧ (σ h).rlink = h := by
  simp [headOk, hl, Bool.and_eq_true, beq_iff_eq, and_assoc]

theorem repr_keysMap {α : Type} [DecidableEq α] {σ : Store α} :
    ∀ (t : ATree α) (pred succ : Nat), reprB σ t pred succ = true →
      t.inAddrs.map (fun a => (σ a).key) = t.inKeys := by
  intro t
  induction t with
  | leaf => intro _ _ _; rfl
  | node l a k r ihl ihr =>
    intro pred succ hrepr
    rcases reprB_node.mp hrepr with ⟨hkey, hL, hR⟩
    have hml : l.inAddrs.map (fun a => (σ a).key) = l.inKeys := by
      cases hl : l.isLeaf with
      | true => rw [isLeaf_iff] at hl; subst hl; rfl
      | false =>
        rw [hl, if_neg Bool.false_ne_true] at hL
        exact ihl pred a hL.2.2
    have hmr : r.inAddrs.map (fun a => (σ a).key) = r.inKeys := by
      cases hr : r.isLeaf with
      | true => rw [isLeaf_iff] at hr; subst hr; rfl
      | false =>
        rw [hr, if_neg Bool.false_ne_true] at hR
        exact ihr a succ hR.2.2
    simp [ATree.inAddrs, ATree.inKeys, hml, hmr, hkey]

/-- Walking the iterator along a successor chain that exits to the head
collects the keys of the chain's addresses. -/
theorem iterK_chain {α : Type} {σ : Store α} {h sf : Nat} :
    ∀ (l : List Nat) (n : Nat), chainS σ sf l h → h ∉ l → l.length ≤ n →
      iterK σ h sf n (l.headD h) = l.map (fun a => (σ a).key) := by
  intro l
  induction l with
  | nil => intro n _ _ _; cases n <;> simp [iterK]
  | cons a l ih =>
    intro n hchain hmem hlen
    obtain ⟨n', rfl⟩ : ∃ n', n = n' + 1 := ⟨n - 1, by simp at hlen; omega⟩
    have hne : a ≠ h := fun he => hmem (he ▸ List.mem_cons_self a l)
    simp only [List.headD_cons, iterK, if_neg (Ne.symm hne ∘ Eq.symm), List.map_cons]
    rcases hchain with ⟨hstep, hrest⟩
    rw [hstep]
    have := ih n' hrest (fun hm => hmem (List.mem_cons_of_mem a hm))
      (by simp at hlen ⊢; omega)
    rw [List.cons.injEq]
    exact ⟨rfl, this⟩

/-- `inorder_successor(m_head)` — `begin()` — reaches the leftmost node
(the head itself when the tree is empty). -/
theorem headSucc {α : Type} [DecidableEq α] {σ : Store α} {h : Nat} {t : ATree α}
    (hho : headOk σ h t = true) (hrepr : reprB σ t h h = true) (sf : Nat)
    (hsf : t.sizeA + 1 ≤ sf) : inorderSucc σ sf h = t.inAddrs.headD h := by
  obtain ⟨sf', rfl⟩ : ∃ sf', sf = sf' + 1 := ⟨sf - 1, by omega⟩
  cases ht : t.isLeaf with
  | true =>
    obtain ⟨h2, _, hrl⟩ := (headOk_leaf ht).mp hho
    rw [isLeaf_iff] at ht
    subst ht
    simp [inorderSucc, h2, hasNullR_two, hrl, downLeft, hasNullL_two, ATree.inAddrs]
  | false =>
    obtain ⟨h0, hll, hrl⟩ := (headOk_node ht).mp hho
    rw [leftA_headD ht]
    simp only [inorderSucc, h0, hasNullR_zero, Bool.false_eq_true, if_false, hrl,
      downLeft, hasNullL_zero, hll]
    exact downLeft_leftmost t h h sf' hrepr ht (by simp [ATree.sizeA] at hsf ⊢; omega)

/-- Reading a represented set through its iterators yields the tree's
inorder key sequence. -/
theorem rtToList_eq {α : Type} [DecidableEq α] {s : RtSet α} {t : ATree α}
    (hInv : SInv s t) {sf n : Nat} (hsf : t.sizeA + 1 ≤ sf) (hn : t.sizeA ≤ n) :
    rtToList s sf n = t.inKeys := by
  obtain ⟨hho, hrepr, hnd⟩ := hInv
  have hmem : s.head ∉ t.inAddrs :=
    fun hm => (List.nodup_cons.mp hnd).1 (List.mem_append_left _ hm)
  rw [rtToList, headSucc hho hrepr sf hsf,
    iterK_chain t.inAddrs n (repr_chain t s.head s.head sf hrepr hsf) hmem
      (by rw [length_inAddrs]; exact hn),
    repr_keysMap t s.head s.head hrepr]

theorem rtSize_eq {α : Type} [DecidableEq α] {s : RtSet α} {t : ATree α}
    (hInv : SInv s t) {sf n : Nat} (hsf : t.sizeA + 1 ≤ sf) (hn : t.sizeA ≤ n) :
    rtSize s sf n = t.sizeA := by
  rw [rtSize, rtToList_eq hInv hsf hn, length_inKeys]

theorem rtEmpty_eq {α : Type} [DecidableEq α] {s : RtSet α} {t : ATree α}
    (hInv : SInv s t) {sf : Nat} (hsf : t.sizeA + 1 ≤ sf) :
    rtEmpty s sf = t.isLeaf := by
  obtain ⟨hho, hrepr, hnd⟩ := hInv
  have hmem : s.head ∉ t.inAddrs :=
    fun hm => (List.nodup_cons.mp hnd).1 (List.mem_append_left _ hm)
  rw [rtEmpty, headSucc hho hrepr sf hsf]
  cases ht : t.isLeaf with
  | true =>
    rw [isLeaf_iff] at ht
    subst ht
    simp [ATree.inAddrs]
  | false =>
    have hin : t.inAddrs.headD s.head ∈ t.inAddrs :=
      headD_mem (inAddrs_ne_nil ht) s.head
    rw [beq_eq_false_iff_ne]
    exact fun he => hmem (he ▸ hin)

theorem tInsT_rootA {α : Type} (cmp : α → α → Bool) (key : α) (q : Nat)
    {t : ATree α} (ht : t.isLeaf = false) :
    (tInsT cmp key q t).rootA = t.rootA ∧ (tInsT cmp key q t).isLeaf = false := by
  cases t with
  | leaf => simp [ATree.isLeaf] at ht
  | node l a k r =>
    simp only [tInsT]
    split <;> [skip; split]
    · split <;> simp [ATree.rootA, ATree.isLeaf]
    · split <;> simp [ATree.rootA, ATree.isLeaf]
    · simp [ATree.rootA, ATree.isLeaf]

theorem tInsT_inAddrs_perm {α : Type} (cmp : α → α → Bool) (key : α) (q : Nat) :
    ∀ (t : ATree α), tFound cmp key t = none →
      (tInsT cmp key q t).inAddrs.Perm (q :: t.inAddrs) := by
  intro t
  induction t with
  | leaf => intro _; simp [tInsT, ATree.inAddrs]
  | node l a k r ihl ihr =>
    intro hnf
    simp only [tFound] at hnf
    simp only [tInsT]
    by_cases h1 : cmp key k = true
    · rw [h1, if_pos rfl] at hnf ⊢
      cases hl : l.isLeaf with
      | true =>
        rw [isLeaf_iff] at hl
        subst hl
        simp [ATree.inAddrs]
      | false =>
        rw [hl] at hnf
        simp only [Bool.false_eq_true, if_false] at hnf ⊢
        simp only [ATree.inAddrs]
        exact (ihl hnf).append_right (a :: r.inAddrs)
    · rw [Bool.not_eq_true] at h1
      rw [h1, if_neg Bool.false_ne_true] at hnf ⊢
      by_cases h2 : cmp k key = true
      · rw [h2, if_pos rfl] at hnf ⊢
        cases hr : r.isLeaf with
        | true =>
          rw [isLeaf_iff] at hr
          subst hr
          simp only [ATree.inAddrs]
          have h5 : ((l.inAddrs ++ [a]) ++ q :: ([] : List Nat)).Perm
              (q :: ((l.inAddrs ++ [a]) ++ ([] : List Nat))) := List.perm_middle
          simpa using h5
        | false =>
          rw [hr] at hnf
          simp only [Bool.false_eq_true, if_false] at hnf ⊢
          simp only [ATree.inAddrs]
          have s1 : (l.inAddrs ++ a :: (tInsT cmp key q r).inAddrs).Perm
              (l.inAddrs ++ a :: q :: r.inAddrs) :=
            List.Perm.append_left _ (List.Perm.cons a (ihr hnf))
          have s2 : (l.inAddrs ++ a :: q :: r.inAddrs).Perm
              (q :: (l.inAddrs ++ a :: r.inAddrs)) := by
            have h5 : ((l.inAddrs ++ [a]) ++ q :: r.inAddrs).Perm
                (q :: ((l.inAddrs ++ [a]) ++ r.inAddrs)) := List.perm_middle
            simpa using h5
          exact s1.trans s2
      · rw [Bool.not_eq_true] at h2
        rw [h2, if_neg Bool.false_ne_true] at hnf
        exact absurd hnf (by simp)

theorem tInsT_inKeys_perm {α : Type} (cmp : α → α → Bool) (key : α) (q : Nat) :
    ∀ (t : ATree α), tFound cmp key t = none →
      (tInsT cmp key q t).inKeys.Perm (key :: t.inKeys) := by
  intro t
  induction t with
  | leaf => intro _; simp [tInsT, ATree.inKeys]
  | node l a k r ihl ihr =>
    intro hnf
    simp only [tFound] at hnf
    simp only [tInsT]
    by_cases h1 : cmp key k = true
    · rw [h1, if_pos rfl] at hnf ⊢
      cases hl : l.isLeaf with
      | true =>
        rw [isLeaf_iff] at hl
        subst hl
        simp [ATree.inKeys]
      | false =>
        rw [hl] at hnf
        simp only [Bool.false_eq_true, if_false] at hnf ⊢
        simp only [ATree.inKeys]
        exact (ihl hnf).append_right (k :: r.inKeys)
    · rw [Bool.not_eq_true] at h1
      rw [h1, if_neg Bool.false_ne_true] at hnf ⊢
      by_cases h2 : cmp k key = true
      · rw [h2, if_pos rfl] at hnf ⊢
        cases hr : r.isLeaf with
        | true =>
          rw [isLeaf_iff] at hr
          subst hr
          simp only [ATree.inKeys]
          have h5 : ((l.inKeys ++ [k]) ++ key :: ([] : List α)).Perm
              (key :: ((l.inKeys ++ [k]) ++ ([] : List α))) := List.perm_middle
          simpa using h5
        | false =>
          rw [hr] at hnf
          simp only [Bool.false_eq_true, if_false] at hnf ⊢
          simp only [ATree.inKeys]
          have s1 : (l.inKeys ++ k :: (tInsT cmp key q r).inKeys).Perm
              (l.inKeys ++ k :: key :: r.inKeys) :=
            List.Perm.append_left _ (List.Perm.cons k (ihr hnf))
          have s2 : (l.inKeys ++ k :: key :: r.inKeys).Perm
              (key :: (l.inKeys ++ k :: r.inKeys)) := by
            have h5 : ((l.inKeys ++ [k]) ++ key :: r.inKeys).Perm
                (key :: ((l.inKeys ++ [k]) ++ r.inKeys)) := List.perm_middle
            simpa using h5
          exact s1.trans s2
      · rw [Bool.not_eq_true] at h2
        rw [h2, if_neg Bool.false_ne_true] at hnf
        exact absurd hnf (by simp)

theorem tFound_mem {α : Type} (cmp : α → α → Bool) (key : α) :
    ∀ (t : ATree α) (c : Nat) (k' : α), tFound cmp key t = some (c, k') →
      c ∈ t.inAddrs ∧ k' ∈ t.inKeys ∧ cmp key k' = false ∧ cmp k' key = false := by
  intro t
  induction t with
  | leaf => intro c k' h; simp [tFound] at h
  | node l a k r ihl ihr =>
    intro c k' h
    simp only [tFound] at h
    by_cases h1 : cmp key k = true
    · rw [h1, if_pos rfl] at h
      cases hl : l.isLeaf with
      | true => rw [hl] at h; simp at h
      | false =>
        rw [hl] at h
        simp only [Bool.false_eq_true, if_false] at h
        obtain ⟨hc, hk, he⟩ := ihl c k' h
        exact ⟨by simp [ATree.inAddrs, hc], by simp [ATree.inKeys, hk], he⟩
    · rw [Bool.not_eq_true] at h1
      rw [h1, if_neg Bool.false_ne_true] at h
      by_cases h2 : cmp k key = true
      · rw [h2, if_pos rfl] at h
        cases hr : r.isLeaf with
        | true => rw [hr] at h; simp at h
        | false =>
          rw [hr] at h
          simp only [Bool.false_eq_true, if_false] at h
          obtain ⟨hc, hk, he⟩ := ihr c k' h
          exact ⟨by simp [ATree.inAddrs, hc], by simp [ATree.inKeys, hk], he⟩
      · rw [Bool.not_eq_true] at h2
        rw [h2, if_neg Bool.false_ne_true] at h
        simp at h
        obtain ⟨hc, hk⟩ := h
        subst hc; subst hk
        exact ⟨by simp [ATree.inAddrs], by simp [ATree.inKeys], h1, h2⟩

theorem nodup_split {α : Type} {l r : ATree α} {a : Nat} {k : α}
    (h : (ATree.node l a k r).inAddrs.Nodup) :
    l.inAddrs.Nodup ∧ r.inAddrs.Nodup ∧ a ∉ l.inAddrs ∧ a ∉ r.inAddrs ∧
      (∀ x ∈ l.inAddrs, x ∉ r.inAddrs) := by
  simp only [ATree.inAddrs, List.nodup_append, List.nodup_cons] at h
  obtain ⟨hl, ⟨har, hr⟩, hdisj⟩ := h
  refine ⟨hl, hr, fun hal => ?_, har, fun x hx hxr => ?_⟩
  · exact hdisj hal (List.mem_cons_self a _)
  · exact hdisj hx (List.mem_cons_of_mem a hxr)

theorem mem_inAddrs_root {α : Type} {l r : ATree α} {a : Nat} {k : α} :
    a ∈ (ATree.node l a k r).inAddrs := by
  simp [ATree.inAddrs]

theorem ite_isLeaf_leaf {α β : Type} {x y : β} :
    (if (ATree.leaf : ATree α).isLeaf = true then x else y) = x := rfl

theorem ite_isLeaf_node {α β : Type} {l r : ATree α} {a : Nat} {k : α} {x y : β} :
    (if (ATree.node l a k r).isLeaf = true then x else y) = y := rfl

/-- The heart of the functional-correctness claims: from the root of a
represented nonempty subtree, the descent loop of `rt::set::insert`
returns the equivalent node with `false` when the search finds one,
throws `bad_alloc` when it does not and the pool is empty, and otherwise
splices the fresh block exactly where `tInsT` says, leaving every other
slot untouched. -/
theorem rtInsLoop_sim {α : Type} [DecidableEq α] (cmp : α → α → Bool) (key : α) :
    ∀ (t : ATree α) (σ : Store α) (free : List Nat) (pred succ f : Nat),
      reprB σ t pred succ = true → t.isLeaf = false → t.sizeA ≤ f →
      t.inAddrs.Nodup → (∀ x ∈ free, x ∉ t.inAddrs) →
      (∀ c k', tFound cmp key t = some (c, k') →
        rtInsLoop cmp σ free key f t.rootA = .ok σ free c false) ∧
      (tFound cmp key t = none → free = [] →
        rtInsLoop cmp σ free key f t.rootA = .oom) ∧
      (∀ q rest, tFound cmp key t = none → free = q :: rest →
        ∃ σ', rtInsLoop cmp σ free key f t.rootA = .ok σ' rest q true ∧
          reprB σ' (tInsT cmp key q t) pred succ = true ∧
          (∀ x, x ∉ t.inAddrs → x ≠ q → σ' x = σ x)) := by
  intro t
  induction t with
  | leaf =>
    intro σ free pred succ f _ hlf
    simp [ATree.isLeaf] at hlf
  | node l a k r ihl ihr =>
    intro σ free pred succ f hrepr _ hf hnd hfresh
    obtain ⟨f', rfl⟩ : ∃ f', f = f' + 1 := ⟨f - 1, by simp [ATree.sizeA] at hf; omega⟩
    rcases reprB_node.mp hrepr with ⟨hkey, hL, hR⟩
    obtain ⟨hndl, hndr, hal, har, hlr⟩ := nodup_split hnd
    have hfl : l.sizeA ≤ f' := by simp [ATree.sizeA] at hf; omega
    have hfr : r.sizeA ≤ f' := by simp [ATree.sizeA] at hf; omega
    simp only [ATree.rootA]
    by_cases h1 : cmp key k = true
    · cases hl : l.isLeaf with
      | true =>
        rw [hl, if_pos rfl] at hL
        have hLtag := hL.1
        have hLlink := hL.2
        have hloopOf : ∀ fr, rtInsLoop cmp σ fr key (f' + 1) a =
            match fr with
            | [] => .oom
            | q :: rest =>
              .ok (attachL (upd σ q { σ q with key := key }) a q) rest q true := by
          intro fr
          simp [rtInsLoop, hkey, h1, hLtag]
        have hfoundEq : tFound cmp key (ATree.node l a k r) = none := by
          simp [tFound, h1, hl]
        refine ⟨?_, ?_, ?_⟩
        · intro c k' hfound
          rw [hfoundEq] at hfound
          exact absurd hfound (by simp)
        · intro _ hfree
          subst hfree
          exact hloopOf []
        · intro q rest _ hfree
          subst hfree
          have hqt : q ∉ (ATree.node l a k r).inAddrs :=
            hfresh q (List.mem_cons_self q rest)
          have haq : a ≠ q := by
            intro he
            exact hqt (by rw [← he]; exact mem_inAddrs_root)
          rw [isLeaf_iff] at hl
          subst hl
          refine ⟨attachL (upd σ q { σ q with key := key }) a q,
            hloopOf (q :: rest), ?_, ?_⟩
          · have hq1 : upd σ q { σ q with key := key } a = σ a := upd_other σ q _ haq
            have hq2 : upd σ q { σ q with key := key } q = { σ q with key := key } :=
              upd_self σ q _
            have hsa : attachL (upd σ q { σ q with key := key }) a q a =
                { σ a with llink := q, tag := (σ a).tag &&& 1 } := by
              rw [attachL_at_p, hq1]
            have hsq : attachL (upd σ q { σ q with key := key }) a q q =
                { key := key, llink := (σ a).llink, rlink := a,
                  tag := ((σ a).tag &&& 2) ||| 1 } := by
              rw [attachL_at_q _ haq, hq1, hq2]
            have hother : ∀ x, x ≠ a → x ≠ q →
                attachL (upd σ q { σ q with key := key }) a q x = σ x := by
              intro x hxa hxq
              rw [attachL_at_other _ hxa hxq, upd_other σ q _ hxq]
            have htree : tInsT cmp key q (ATree.node ATree.leaf a k r) =
                ATree.node (ATree.node ATree.leaf q key ATree.leaf) a k r := by
              simp [tInsT, h1, ATree.isLeaf]
            rw [htree, reprB_node]
            refine ⟨by rw [hsa]; exact hkey, ?_, ?_⟩
            · rw [ite_isLeaf_node]
              refine ⟨?_, ?_, ?_⟩
              · rw [hsa]
                exact hasNullL_clearL _
              · rw [hsa]; rfl
              · rw [reprB_node]
                refine ⟨by rw [hsq], ?_, ?_⟩
                · rw [ite_isLeaf_leaf, hsq]
                  refine ⟨?_, hLlink⟩
                  show hasNullL ((σ a).tag &&& 2 ||| 1) = true
                  rw [hasNullL_attachLtag]
                  exact hLtag
                · rw [ite_isLeaf_leaf, hsq]
                  exact ⟨hasNullR_attachLtag _, rfl⟩
            · cases hr : r.isLeaf with
              | true =>
                rw [hr, if_pos rfl] at hR
                rw [if_pos rfl, hsa]
                refine ⟨?_, hR.2⟩
                show hasNullR ((σ a).tag &&& 1) = true
                rw [hasNullR_clearL]
                exact hR.1
              | false =>
                rw [hr, if_neg Bool.false_ne_true] at hR
                rw [if_neg Bool.false_ne_true, hsa]
                refine ⟨?_, hR.2.1, ?_⟩
                · show hasNullR ((σ a).tag &&& 1) = false
                  rw [hasNullR_clearL]
                  exact hR.1
                rw [reprB_congr r a succ]
                · exact hR.2.2
                · intro x hx
                  have hxa : x ≠ a := fun he => har (he ▸ hx)
                  have hxq : x ≠ q := by
                    intro he
                    exact hqt (by rw [← he]; simp [ATree.inAddrs, hx])
                  exact hother x hxa hxq
          · intro x hxt hxq
            have hxa : x ≠ a := by
              intro he
              exact hxt (by rw [he]; exact mem_inAddrs_root)
            rw [attachL_at_other _ hxa hxq, upd_other σ q _ hxq]
      | false =>
        rw [hl, if_neg Bool.false_ne_true] at hL
        have hstep : ∀ fr, rtInsLoop cmp σ fr key (f' + 1) a =
            rtInsLoop cmp σ fr key f' l.rootA := by
          intro fr
          simp [rtInsLoop, hkey, h1, hL.1, hL.2.1]
        have hfoundEq : tFound cmp key (ATree.node l a k r) = tFound cmp key l := by
          simp [tFound, h1, hl]
        have hfreshl : ∀ x ∈ free, x ∉ l.inAddrs := by
          intro x hx hxl
          exact hfresh x hx (by simp [ATree.inAddrs, hxl])
        obtain ⟨IH1, IH2, IH3⟩ := ihl σ free pred a f' hL.2.2 hl hfl hndl hfreshl
        refine ⟨?_, ?_, ?_⟩
        · intro c k' hfound
          rw [hfoundEq] at hfound
          rw [hstep]
          exact IH1 c k' hfound
        · intro hfound hfree
          rw [hfoundEq] at hfound
          rw [hstep]
          exact IH2 hfound hfree
        · intro q rest hfound hfree
          rw [hfoundEq] at hfound
          obtain ⟨σ', hloop, hrepr', hframe⟩ := IH3 q rest hfound hfree
          have hqt : q ∉ (ATree.node l a k r).inAddrs := by
            subst hfree
            exact hfresh q (List.mem_cons_self q rest)
          have haq : a ≠ q := by
            intro he
            exact hqt (by rw [← he]; exact mem_inAddrs_root)
          refine ⟨σ', by rw [hstep]; exact hloop, ?_, ?_⟩
          · have hsa : σ' a = σ a := hframe a hal haq
            have hroot := tInsT_rootA cmp key q (t := l) hl
            have htree : tInsT cmp key q (ATree.node l a k r) =
                ATree.node (tInsT cmp key q l) a k r := by
              simp [tInsT, h1, hl]
            rw [htree, reprB_node]
            refine ⟨by rw [hsa]; exact hkey, ?_, ?_⟩
            · rw [hroot.2, if_neg Bool.false_ne_true]
              refine ⟨by rw [hsa]; exact hL.1, ?_, hrepr'⟩
              rw [hsa, hroot.1]
              exact hL.2.1
            · cases hr : r.isLeaf with
              | true =>
                rw [hr, if_pos rfl] at hR
                rw [if_pos rfl, hsa]
                exact hR
              | false =>
                rw [hr, if_neg Bool.false_ne_true] at hR
                rw [if_neg Bool.false_ne_true, hsa]
                refine ⟨hR.1, hR.2.1, ?_⟩
                rw [reprB_congr r a succ]
                · exact hR.2.2
                · intro x hx
                  have hxl : x ∉ l.inAddrs := fun hxl => hlr x hxl hx
                  have hxq : x ≠ q := by
                    intro he
                    exact hqt (by rw [← he]; simp [ATree.inAddrs, hx])
                  exact hframe x hxl hxq
          · intro x hxt hxq
            have hxl : x ∉ l.inAddrs := fun hxl => hxt (by simp [ATree.inAddrs, hxl])
            exact hframe x hxl hxq
    · rw [Bool.not_eq_true] at h1
      by_cases h2 : cmp k key = true
      · cases hr : r.isLeaf with
        | true =>
          rw [hr, if_pos rfl] at hR
          have hRtag := hR.1
          have hRlink := hR.2
          have hloopOf : ∀ fr, rtInsLoop cmp σ fr key (f' + 1) a =
              match fr with
              | [] => .oom
              | q :: rest =>
                .ok (attachR (upd σ q { σ q with key := key }) a q) rest q true := by
            intro fr
            simp [rtInsLoop, hkey, h1, h2, hRtag]
          have hfoundEq : tFound cmp key (ATree.node l a k r) = none := by
            simp [tFound, h1, h2, hr]
          refine ⟨?_, ?_, ?_⟩
          · intro c k' hfound
            rw [hfoundEq] at hfound
            exact absurd hfound (by simp)
          · intro _ hfree
            subst hfree
            exact hloopOf []
          · intro q rest _ hfree
            subst hfree
            have hqt : q ∉ (ATree.node l a k r).inAddrs :=
              hfresh q (List.mem_cons_self q rest)
            have haq : a ≠ q := by
              intro he
              exact hqt (by rw [← he]; exact mem_inAddrs_root)
            rw [isLeaf_iff] at hr
            subst hr
            refine ⟨attachR (upd σ q { σ q with key := key }) a q,
              hloopOf (q :: rest), ?_, ?_⟩
            · have hq1 : upd σ q { σ q with key := key } a = σ a := upd_other σ q _ haq
              have hq2 : upd σ q { σ q with key := key } q = { σ q with key := key } :=
                upd_self σ q _
              have hsa : attachR (upd σ q { σ q with key := key }) a q a =
                  { σ a with rlink := q, tag := (σ a).tag &&& 2 } := by
                rw [attachR_at_p, hq1]
              have hsq : attachR (upd σ q { σ q with key := key }) a q q =
                  { key := key, llink := a, rlink := (σ a).rlink,
                    tag := ((σ a).tag &&& 1) ||| 2 } := by
                rw [attachR_at_q _ haq, hq1, hq2]
              have hother : ∀ x, x ≠ a → x ≠ q →
                  attachR (upd σ q { σ q with key := key }) a q x = σ x := by
                intro x hxa hxq
                rw [attachR_at_other _ hxa hxq, upd_other σ q _ hxq]
              have htree : tInsT cmp key q (ATree.node l a k ATree.leaf) =
                  ATree.node l a k (ATree.node ATree.leaf q key ATree.leaf) := by
                simp [tInsT, h1, h2, ATree.isLeaf]
              rw [htree, reprB_node]
              refine ⟨by rw [hsa]; exact hkey, ?_, ?_⟩
              · cases hlf : l.isLeaf with
                | true =>
                  rw [hlf, if_pos rfl] at hL
                  rw [if_pos rfl, hsa]
                  refine ⟨?_, hL.2⟩
                  show hasNullL ((σ a).tag &&& 2) = true
                  rw [hasNullL_clearR]
                  exact hL.1
                | false =>
                  rw [hlf, if_neg Bool.false_ne_true] at hL
                  rw [if_neg Bool.false_ne_true, hsa]
                  refine ⟨?_, hL.2.1, ?_⟩
                  · show hasNullL ((σ a).tag &&& 2) = false
                    rw [hasNullL_clearR]
                    exact hL.1
                  rw [reprB_congr l pred a]
                  · exact hL.2.2
                  · intro x hx
                    have hxa : x ≠ a := fun he => hal (he ▸ hx)
                    have hxq : x ≠ q := by
                      intro he
                      exact hqt (by rw [← he]; simp [ATree.inAddrs, hx])
                    exact hother x hxa hxq
              · rw [ite_isLeaf_node]
                refine ⟨?_, ?_, ?_⟩
                · rw [hsa]
                  exact hasNullR_clearR _
                · rw [hsa]; rfl
                · rw [reprB_node]
                  refine ⟨by rw [hsq], ?_, ?_⟩
                  · rw [ite_isLeaf_leaf, hsq]
                    exact ⟨hasNullL_attachRtag _, rfl⟩
                  · rw [ite_isLeaf_leaf, hsq]
                    refine ⟨?_, hRlink⟩
                    show hasNullR ((σ a).tag &&& 1 ||| 2) = true
                    rw [hasNullR_attachRtag]
                    exact hRtag
            · intro x hxt hxq
              have hxa : x ≠ a := by
                intro he
                exact hxt (by rw [he]; exact mem_inAddrs_root)
              rw [attachR_at_other _ hxa hxq, upd_other σ q _ hxq]
        | false =>
          rw [hr, if_neg Bool.false_ne_true] at hR
          have hstep : ∀ fr, rtInsLoop cmp σ fr key (f' + 1) a =
              rtInsLoop cmp σ fr key f' r.rootA := by
            intro fr
            simp [rtInsLoop, hkey, h1, h2, hR.1, hR.2.1]
          have hfoundEq : tFound cmp key (ATree.node l a k r) = tFound cmp key r := by
            simp [tFound, h1, h2, hr]
          have hfreshr : ∀ x ∈ free, x ∉ r.inAddrs := by
            intro x hx hxr
            exact hfresh x hx (by simp [ATree.inAddrs, hxr])
          obtain ⟨IH1, IH2, IH3⟩ := ihr σ free a succ f' hR.2.2 hr hfr hndr hfreshr
          refine ⟨?_, ?_, ?_⟩
          · intro c k' hfound
            rw [hfoundEq] at hfound
            rw [hstep]
            exact IH1 c k' hfound
          · intro hfound hfree
            rw [hfoundEq] at hfound
            rw [hstep]
            exact IH2 hfound hfree
          · intro q rest hfound hfree
            rw [hfoundEq] at hfound
            obtain ⟨σ', hloop, hrepr', hframe⟩ := IH3 q rest hfound hfree
            have hqt : q ∉ (ATree.node l a k r).inAddrs := by
              subst hfree
              exact hfresh q (List.mem_cons_self q rest)
            have haq : a ≠ q := by
              intro he
              exact hqt (by rw [← he]; exact mem_inAddrs_root)
            refine ⟨σ', by rw [hstep]; exact hloop, ?_, ?_⟩
            · have hsa : σ' a = σ a := hframe a har haq
              have hroot := tInsT_rootA cmp key q (t := r) hr
              have htree : tInsT cmp key q (ATree.node l a k r) =
                  ATree.node l a k (tInsT cmp key q r) := by
                simp [tInsT, h1, h2, hr]
              rw [htree, reprB_node]
              refine ⟨by rw [hsa]; exact hkey, ?_, ?_⟩
              · cases hlf : l.isLeaf with
                | true =>
                  rw [hlf, if_pos rfl] at hL
                  rw [if_pos rfl, hsa]
                  exact hL
                | false =>
                  rw [hlf, if_neg Bool.false_ne_true] at hL
                  rw [if_neg Bool.false_ne_true, hsa]
                  refine ⟨hL.1, hL.2.1, ?_⟩
                  rw [reprB_congr l pred a]
                  · exact hL.2.2
                  · intro x hx
                    have hxr : x ∉ r.inAddrs := hlr x hx
                    have hxq : x ≠ q := by
                      intro he
                      exact hqt (by rw [← he]; simp [ATree.inAddrs, hx])
                    exact hframe x hxr hxq
              · rw [hroot.2, if_neg Bool.false_ne_true]
                refine ⟨by rw [hsa]; exact hR.1, ?_, hrepr'⟩
                rw [hsa, hroot.1]
                exact hR.2.1
            · intro x hxt hxq
              have hxr : x ∉ r.inAddrs := fun hxr => hxt (by simp [ATree.inAddrs, hxr])
              exact hframe x hxr hxq
      · rw [Bool.not_eq_true] at h2
        have hfoundEq : tFound cmp key (ATree.node l a k r) = some (a, k) := by
          simp [tFound, h1, h2]
        refine ⟨?_, ?_, ?_⟩
        · intro c k' hfound
          rw [hfoundEq] at hfound
          simp only [Option.some.injEq, Prod.mk.injEq] at hfound
          obtain ⟨hac, hkk⟩ := hfound
          subst hac
          simp [rtInsLoop, hkey, h1, h2]
        · intro hfound _
          rw [hfoundEq] at hfound
          exact absurd hfound (by simp)
        · intro q rest hfound _
          rw [hfoundEq] at hfound
          exact absurd hfound (by simp)

theorem nodup_inAddrs_of_SInv {α : Type} [DecidableEq α] {s : RtSet α} {t : ATree α}
    (hInv : SInv s t) : t.inAddrs.Nodup := by
  obtain ⟨_, _, hnd⟩ := hInv
  have := (List.nodup_cons.mp hnd).2
  exact (List.nodup_append.mp this).1

theorem fresh_of_SInv {α : Type} [DecidableEq α] {s : RtSet α} {t : ATree α}
    (hInv : SInv s t) : ∀ x ∈ s.free, x ∉ t.inAddrs := by
  obtain ⟨_, _, hnd⟩ := hInv
  have := (List.nodup_cons.mp hnd).2
  have hdisj := (List.nodup_append.mp this).2.2
  exact fun x hx hxt => hdisj hxt hx

theorem head_not_tree_of_SInv {α : Type} [DecidableEq α] {s : RtSet α} {t : ATree α}
    (hInv : SInv s t) : s.head ∉ t.inAddrs := by
  obtain ⟨_, _, hnd⟩ := hInv
  exact fun hm => (List.nodup_cons.mp hnd).1 (List.mem_append_left _ hm)

theorem head_not_free_of_SInv {α : Type} [DecidableEq α] {s : RtSet α} {t : ATree α}
    (hInv : SInv s t) : s.head ∉ s.free := by
  obtain ⟨_, _, hnd⟩ := hInv
  exact fun hm => (List.nodup_cons.mp hnd).1 (List.mem_append_right _ hm)

/-- `rt::set::insert` against the whole-container invariant: equivalent key
present — the existing cursor and `false`, nothing touched; pool exhausted —
`std::bad_alloc` escapes; otherwise the head block of the free list becomes
the node `tInsT` places, and the invariant carries over. -/
theorem rtInsert_sim {α : Type} [DecidableEq α] (cmp : α → α → Bool)
    (s : RtSet α) (t : ATree α) (key : α) (f : Nat)
    (hInv : SInv s t) (hf : t.sizeA ≤ f) :
    (∀ c k', tFound cmp key t = some (c, k') →
      rtInsert cmp s key f = .ok s.store s.free c false) ∧
    (tFound cmp key t = none → s.free = [] → rtInsert cmp s key f = .oom) ∧
    (∀ q rest, tFound cmp key t = none → s.free = q :: rest →
      ∃ σ', rtInsert cmp s key f = .ok σ' rest q true ∧
        SInv ⟨σ', s.head, rest⟩ (tInsT cmp key q t) ∧
        (∀ x, x ∉ t.inAddrs → x ≠ q → x ≠ s.head → σ' x = s.store x)) := by
  obtain ⟨hho, hrepr, hnd⟩ := hInv
  cases ht : t.isLeaf with
  | true =>
    obtain ⟨htag, hll, hrl⟩ := (headOk_leaf ht).mp hho
    rw [isLeaf_iff] at ht
    subst ht
    have hloopOf : rtInsert cmp s key f =
        match s.free with
        | [] => .oom
        | q :: rest =>
          .ok (attachL (upd s.store q { s.store q with key := key }) s.head q)
            rest q true := by
      simp [rtInsert, htag, hasNullL_two]
    refine ⟨?_, ?_, ?_⟩
    · intro c k' hfound
      exact absurd hfound (by simp [tFound])
    · intro _ hfree
      rw [hloopOf, hfree]
    · intro q rest _ hfree
      have hhq : s.head ≠ q := by
        intro he
        have : s.head ∈ s.free := by rw [hfree, ← he]; exact List.mem_cons_self _ _
        exact head_not_free_of_SInv ⟨hho, hrepr, hnd⟩ this
      have hq1 : upd s.store q { s.store q with key := key } s.head = s.store s.head :=
        upd_other _ q _ hhq
      have hq2 : upd s.store q { s.store q with key := key } q =
          { s.store q with key := key } := upd_self _ q _
      have hsa : attachL (upd s.store q { s.store q with key := key }) s.head q s.head =
          { s.store s.head with llink := q, tag := (s.store s.head).tag &&& 1 } := by
        rw [attachL_at_p, hq1]
      have hsq : attachL (upd s.store q { s.store q with key := key }) s.head q q =
          { key := key, llink := (s.store s.head).llink, rlink := s.head,
            tag := ((s.store s.head).tag &&& 2) ||| 1 } := by
        rw [attachL_at_q _ hhq, hq1, hq2]
      refine ⟨attachL (upd s.store q { s.store q with key := key }) s.head q,
        by rw [hloopOf, hfree], ⟨?_, ?_, ?_⟩, ?_⟩
      · dsimp only
        have h6 : tInsT cmp key q (ATree.leaf : ATree α) =
            ATree.node ATree.leaf q key ATree.leaf := rfl
        rw [h6]
        rw [headOk_node (by rfl)]
        rw [hsa, htag]
        exact ⟨rfl, rfl, hrl⟩
      · dsimp only
        have h6 : tInsT cmp key q (ATree.leaf : ATree α) =
            ATree.node ATree.leaf q key ATree.leaf := rfl
        rw [h6, reprB_node]
        refine ⟨by rw [hsq], ?_, ?_⟩
        · rw [ite_isLeaf_leaf, hsq, htag]
          refine ⟨?_, hll⟩
          show hasNullL (2 &&& 2 ||| 1) = true
          decide
        · rw [ite_isLeaf_leaf, hsq, htag]
          refine ⟨?_, rfl⟩
          show hasNullR (2 &&& 2 ||| 1) = true
          decide
      · dsimp only
        have h6 : (tInsT cmp key q (ATree.leaf : ATree α)).inAddrs = [q] := rfl
        rw [h6]
        have h7 := hnd
        rw [hfree] at h7
        simpa [ATree.inAddrs] using h7
      · intro x _ hxq hxh
        rw [attachL_at_other _ hxh hxq, upd_other _ q _ hxq]
  | false =>
    obtain ⟨htag, hll, hrl⟩ := (headOk_node ht).mp hho
    have hloopEq : rtInsert cmp s key f =
        rtInsLoop cmp s.store s.free key f t.rootA := by
      simp [rtInsert, htag, hasNullL_zero, hll]
    obtain ⟨IH1, IH2, IH3⟩ := rtInsLoop_sim cmp key t s.store s.free s.head s.head f
      hrepr ht hf (nodup_inAddrs_of_SInv ⟨hho, hrepr, hnd⟩)
      (fresh_of_SInv ⟨hho, hrepr, hnd⟩)
    refine ⟨?_, ?_, ?_⟩
    · intro c k' hfound
      rw [hloopEq]
      exact IH1 c k' hfound
    · intro hfound hfree
      rw [hloopEq]
      exact IH2 hfound hfree
    · intro q rest hfound hfree
      obtain ⟨σ', hloop, hrepr', hframe⟩ := IH3 q rest hfound hfree
      have hqfree : q ∈ s.free := by rw [hfree]; exact List.mem_cons_self _ _
      have hqh : q ≠ s.head := by
        intro he
        exact head_not_free_of_SInv ⟨hho, hrepr, hnd⟩ (he ▸ hqfree)
      have hsh : σ' s.head = s.store s.head :=
        hframe s.head (head_not_tree_of_SInv ⟨hho, hrepr, hnd⟩) (Ne.symm hqh)
      have hroot := tInsT_rootA cmp key q (t := t) ht
      refine ⟨σ', by rw [hloopEq]; exact hloop, ⟨?_, hrepr', ?_⟩, ?_⟩
      · dsimp only
        rw [headOk_node hroot.2, hsh, hroot.1]
        exact ⟨htag, hll, hrl⟩
      · show (s.head :: (tInsT cmp key q t).inAddrs ++ rest).Nodup
        have hperm1 : (tInsT cmp key q t).inAddrs.Perm (q :: t.inAddrs) :=
          tInsT_inAddrs_perm cmp key q t hfound
        have hperm2 : (s.head :: t.inAddrs ++ q :: rest).Perm
            (s.head :: (tInsT cmp key q t).inAddrs ++ rest) := by
          refine List.Perm.cons s.head ?_
          have h3 : (t.inAddrs ++ q :: rest).Perm (q :: (t.inAddrs ++ rest)) :=
            List.perm_middle
          have h4 : (q :: (t.inAddrs ++ rest)).Perm
              ((tInsT cmp key q t).inAddrs ++ rest) := by
            have := hperm1.symm.append_right rest
            simpa using this
          exact h3.trans h4
        have := hnd
        rw [hfree] at this
        exact hperm2.nodup this
      · intro x hxt hxq _
        exact hframe x hxt hxq


/-- The descent of `rt::set::find` follows the search: the equivalent
node's address, or the head (`end()`) when the search falls off a thread. -/
theorem rtFindLoop_sim {α : Type} [DecidableEq α] (cmp : α → α → Bool) (key : α) :
    ∀ (t : ATree α) (σ : Store α) (h pred succ f : Nat),
      reprB σ t pred succ = true → t.isLeaf = false → t.sizeA ≤ f →
      rtFindLoop cmp σ h key f t.rootA =
        (match tFound cmp key t with
         | some (c, _) => c
         | none => h) := by
  intro t
  induction t with
  | leaf =>
    intro σ h pred succ f _ hlf
    simp [ATree.isLeaf] at hlf
  | node l a k r ihl ihr =>
    intro σ h pred succ f hrepr _ hf
    obtain ⟨f', rfl⟩ : ∃ f', f = f' + 1 := ⟨f - 1, by simp [ATree.sizeA] at hf; omega⟩
    rcases reprB_node.mp hrepr with ⟨hkey, hL, hR⟩
    have hfl : l.sizeA ≤ f' := by simp [ATree.sizeA] at hf; omega
    have hfr : r.sizeA ≤ f' := by simp [ATree.sizeA] at hf; omega
    simp only [ATree.rootA]
    by_cases h1 : cmp key k = true
    · cases hl : l.isLeaf with
      | true =>
        rw [hl, if_pos rfl] at hL
        simp [rtFindLoop, hkey, h1, hL.1, tFound, hl]
      | false =>
        rw [hl, if_neg Bool.false_ne_true] at hL
        have : tFound cmp key (ATree.node l a k r) = tFound cmp key l := by
          simp [tFound, h1, hl]
        rw [this]
        have hloop : rtFindLoop cmp σ h key (f' + 1) a =
            rtFindLoop cmp σ h key f' l.rootA := by
          simp [rtFindLoop, hkey, h1, hL.1, hL.2.1]
        rw [hloop]
        exact ihl σ h pred a f' hL.2.2 hl hfl
    · rw [Bool.not_eq_true] at h1
      by_cases h2 : cmp k key = true
      · cases hr : r.isLeaf with
        | true =>
          rw [hr, if_pos rfl] at hR
          simp [rtFindLoop, hkey, h1, h2, hR.1, tFound, hr]
        | false =>
          rw [hr, if_neg Bool.false_ne_true] at hR
          have : tFound cmp key (ATree.node l a k r) = tFound cmp key r := by
            simp [tFound, h1, h2, hr]
          rw [this]
          have hloop : rtFindLoop cmp σ h key (f' + 1) a =
              rtFindLoop cmp σ h key f' r.rootA := by
            simp [rtFindLoop, hkey, h1, h2, hR.1, hR.2.1]
          rw [hloop]
          exact ihr σ h a succ f' hR.2.2 hr hfr
      · rw [Bool.not_eq_true] at h2
        simp [rtFindLoop, hkey, h1, h2, tFound]

theorem rtCountLoop_sim {α : Type} [DecidableEq α] (cmp : α → α → Bool) (key : α) :
    ∀ (t : ATree α) (σ : Store α) (pred succ f : Nat),
      reprB σ t pred succ = true → t.isLeaf = false → t.sizeA ≤ f →
      rtCountLoop cmp σ key f t.rootA =
        (match tFound cmp key t with
         | some _ => 1
         | none => 0) := by
  intro t
  induction t with
  | leaf =>
    intro σ pred succ f _ hlf
    simp [ATree.isLeaf] at hlf
  | node l a k r ihl ihr =>
    intro σ pred succ f hrepr _ hf
    obtain ⟨f', rfl⟩ : ∃ f', f = f' + 1 := ⟨f - 1, by simp [ATree.sizeA] at hf; omega⟩
    rcases reprB_node.mp hrepr with ⟨hkey, hL, hR⟩
    have hfl : l.sizeA ≤ f' := by simp [ATree.sizeA] at hf; omega
    have hfr : r.sizeA ≤ f' := by simp [ATree.sizeA] at hf; omega
    simp only [ATree.rootA]
    by_cases h1 : cmp key k = true
    · cases hl : l.isLeaf with
      | true =>
        rw [hl, if_pos rfl] at hL
        simp [rtCountLoop, hkey, h1, hL.1, tFound, hl]
      | false =>
        rw [hl, if_neg Bool.false_ne_true] at hL
        have : tFound cmp key (ATree.node l a k r) = tFound cmp key l := by
          simp [tFound, h1, hl]
        rw [this]
        have hloop : rtCountLoop cmp σ key (f' + 1) a =
            rtCountLoop cmp σ key f' l.rootA := by
          simp [rtCountLoop, hkey, h1, hL.1, hL.2.1]
        rw [hloop]
        exact ihl σ pred a f' hL.2.2 hl hfl
    · rw [Bool.not_eq_true] at h1
      by_cases h2 : cmp k key = true
      · cases hr : r.isLeaf with
        | true =>
          rw [hr, if_pos rfl] at hR
          simp [rtCountLoop, hkey, h1, h2, hR.1, tFound, hr]
        | false =>
          rw [hr, if_neg Bool.false_ne_true] at hR
          have : tFound cmp key (ATree.node l a k r) = tFound cmp key r := by
            simp [tFound, h1, h2, hr]
          rw [this]
          have hloop : rtCountLoop cmp σ key (f' + 1) a =
              rtCountLoop cmp σ key f' r.rootA := by
            simp [rtCountLoop, hkey, h1, h2, hR.1, hR.2.1]
          rw [hloop]
          exact ihr σ a succ f' hR.2.2 hr hfr
      · rw [Bool.not_eq_true] at h2
        simp [rtCountLoop, hkey, h1, h2, tFound]

theorem rtFind_sim {α : Type} [DecidableEq α] (cmp : α → α → Bool)
    {s : RtSet α} {t : ATree α} (key : α) (f : Nat)
    (hInv : SInv s t) (hf : t.sizeA ≤ f) :
    rtFind cmp s key f =
      (match tFound cmp key t with
       | some (c, _) => c
       | none => s.head) := by
  obtain ⟨hho, hrepr, _⟩ := hInv
  cases ht : t.isLeaf with
  | true =>
    obtain ⟨htag, _, _⟩ := (headOk_leaf ht).mp hho
    rw [isLeaf_iff] at ht
    subst ht
    simp [rtFind, htag, hasNullL_two, tFound]
  | false =>
    obtain ⟨htag, hll, _⟩ := (headOk_node ht).mp hho
    have : rtFind cmp s key f = rtFindLoop cmp s.store s.head key f t.rootA := by
      simp [rtFind, htag, hasNullL_zero, hll]
    rw [this]
    exact rtFindLoop_sim cmp key t s.store s.head s.head s.head f hrepr ht hf

theorem rtCount_sim {α : Type} [DecidableEq α] (cmp : α → α → Bool)
    {s : RtSet α} {t : ATree α} (key : α) (f : Nat)
    (hInv : SInv s t) (hf : t.sizeA ≤ f) :
    rtCount cmp s key f =
      (match tFound cmp key t with
       | some _ => 1
       | none => 0) := by
  obtain ⟨hho, hrepr, _⟩ := hInv
  cases ht : t.isLeaf with
  | true =>
    obtain ⟨htag, _, _⟩ := (headOk_leaf ht).mp hho
    rw [isLeaf_iff] at ht
    subst ht
    simp [rtCount, htag, hasNullL_two, tFound]
  | false =>
    obtain ⟨htag, hll, _⟩ := (headOk_node ht).mp hho
    have : rtCount cmp s key f = rtCountLoop cmp s.store key f t.rootA := by
      simp [rtCount, htag, hasNullL_zero, hll]
    rw [this]
    exact rtCountLoop_sim cmp key t s.store s.head s.head f hrepr ht hf

/-- The `rt::set` constructor builds the empty represented set, spending
the first free block on the head sentinel. -/
theorem rtNew_SInv {α : Type} [DecidableEq α] (σ : Store α) (h : Nat)
    (rest : List Nat) (hnd : (h :: rest).Nodup) :
    ∃ s, rtNew σ (h :: rest) = some s ∧ s.head = h ∧ s.free = rest ∧
      SInv s (.leaf : ATree α) := by
  refine ⟨_, rfl, rfl, rfl, ?_, ?_, ?_⟩
  · rw [headOk_leaf (t := (ATree.leaf : ATree α)) rfl]
    dsimp only
    rw [upd_self]
    exact ⟨rfl, rfl, rfl⟩
  · rfl
  · dsimp only
    simpa [ATree.inAddrs] using hnd


/-- The body of `rt::set::clear`, run along a successor chain that ends at
the head: every chain node is pushed back on the free list (in walk
order), the key slots recorded as destroyed are the chain entries from
the second one on, plus the head's own slot. -/
theorem clearLoop_run {α : Type} {σ : Store α} {h sf : Nat} :
    ∀ (l : List Nat) (a : Nat) (fu : Nat) (free des dea : List Nat),
      chainS σ sf (a :: l) h → h ∉ a :: l → l.length + 1 ≤ fu →
      clearLoop σ h sf fu a free des dea =
        ((a :: l).reverse ++ free, des ++ (l ++ [h]), dea ++ (a :: l)) := by
  intro l
  induction l with
  | nil =>
    intro a fu free des dea hchain hmem hfu
    obtain ⟨fu', rfl⟩ : ∃ fu', fu = fu' + 1 := ⟨fu - 1, by omega⟩
    obtain ⟨hstep, _⟩ := hchain
    simp only [List.headD_nil] at hstep
    have ha : a ≠ h := fun he => hmem (by rw [he]; exact List.mem_cons_self _ _)
    simp [clearLoop, hstep, ha]
  | cons b l ih =>
    intro a fu free des dea hchain hmem hfu
    obtain ⟨fu', rfl⟩ : ∃ fu', fu = fu' + 1 := ⟨fu - 1, by omega⟩
    obtain ⟨hstep, hrest⟩ := hchain
    simp only [List.headD_cons] at hstep
    have ha : a ≠ h := fun he => hmem (by rw [he]; exact List.mem_cons_self _ _)
    have hb : b ≠ h := fun he => hmem (by
      rw [he] at *
      exact List.mem_cons_of_mem a (List.mem_cons_self _ _))
    have hmem' : h ∉ b :: l := fun hm => hmem (List.mem_cons_of_mem a hm)
    have heval : clearLoop σ h sf (fu' + 1) a free des dea =
        clearLoop σ h sf fu' b (a :: free) (des ++ [b]) (dea ++ [a]) := by
      simp [clearLoop, hstep, ha, hb]
    rw [heval, ih b fu' (a :: free) (des ++ [b]) (dea ++ [a]) hrest hmem' (by
      simp at hfu ⊢
      omega)]
    simp

/-- `rt::set::clear` on a represented set: the head is reset, every tree
block goes back on the free list, the deallocation trace is exactly the
inorder node sequence — but the destroy trace is the inorder sequence
with its first entry dropped and the head sentinel appended. -/
theorem rtClear_sim {α : Type} [DecidableEq α] {s : RtSet α} {t : ATree α}
    (hInv : SInv s t) {sf fu : Nat} (hsf : t.sizeA + 1 ≤ sf)
    (hfu : t.sizeA + 1 ≤ fu) :
    rtClear s sf fu =
      (⟨upd s.store s.head
          { s.store s.head with llink := s.head, rlink := s.head, tag := 2 },
        s.head, t.inAddrs.reverse ++ s.free⟩,
       (if t.isLeaf then [] else t.inAddrs.tail ++ [s.head]),
       t.inAddrs) := by
  obtain ⟨hho, hrepr, hnd⟩ := hInv
  have hmem : s.head ∉ t.inAddrs := head_not_tree_of_SInv ⟨hho, hrepr, hnd⟩
  obtain ⟨fu', rfl⟩ : ∃ fu', fu = fu' + 1 := ⟨fu - 1, by omega⟩
  have hsucc : inorderSucc s.store sf s.head = t.inAddrs.headD s.head :=
    headSucc hho hrepr sf hsf
  cases ht : t.isLeaf with
  | true =>
    rw [isLeaf_iff] at ht
    subst ht
    simp only [ATree.inAddrs, List.headD_nil] at hsucc
    simp [rtClear, clearLoop, hsucc, ATree.inAddrs, ATree.isLeaf]
  | false =>
    obtain ⟨a, l, heq⟩ : ∃ a l, t.inAddrs = a :: l := by
      cases hia : t.inAddrs with
      | nil => exact absurd hia (inAddrs_ne_nil ht)
      | cons a l => exact ⟨a, l, rfl⟩
    rw [heq, List.headD_cons] at hsucc
    have hchain : chainS s.store sf t.inAddrs s.head :=
      repr_chain t s.head s.head sf hrepr hsf
    rw [heq] at hchain hmem
    have ha : a ≠ s.head := fun he => hmem (by rw [← he]; exact List.mem_cons_self _ _)
    have hlen : l.length + 1 ≤ fu' := by
      have := length_inAddrs t
      rw [heq] at this
      simp at this
      omega
    have heval : clearLoop s.store s.head sf (fu' + 1) s.head s.free [] [] =
        clearLoop s.store s.head sf fu' a s.free [] [] := by
      simp [clearLoop, hsucc, ha]
    have hrun := clearLoop_run l a fu' s.free [] [] hchain hmem hlen
    rw [rtClear, heval, hrun, heq]
    simp [ht]

/-- A just-cleared set is the represented empty set again. -/
theorem rtClear_SInv {α : Type} [DecidableEq α] {s : RtSet α} {t : ATree α}
    (hInv : SInv s t) {sf fu : Nat} (hsf : t.sizeA + 1 ≤ sf)
    (hfu : t.sizeA + 1 ≤ fu) :
    SInv (rtClear s sf fu).1 (.leaf : ATree α) := by
  rw [rtClear_sim hInv hsf hfu]
  obtain ⟨hho, hrepr, hnd⟩ := hInv
  refine ⟨?_, rfl, ?_⟩
  · rw [headOk_leaf (t := (ATree.leaf : ATree α)) rfl]
    dsimp only
    rw [upd_self]
    exact ⟨rfl, rfl, rfl⟩
  · dsimp only
    simp only [ATree.inAddrs, List.nil_append]
    show (s.head :: (t.inAddrs.reverse ++ s.free)).Nodup
    rw [List.nodup_cons]
    constructor
    · intro hm
      rcases List.mem_append.mp hm with hm | hm
      · exact (List.nodup_cons.mp hnd).1
          (List.mem_append_left _ (List.mem_reverse.mp hm))
      · exact (List.nodup_cons.mp hnd).1 (List.mem_append_right _ hm)
    · have hperm : (t.inAddrs ++ s.free).Perm (t.inAddrs.reverse ++ s.free) :=
        (List.reverse_perm t.inAddrs).symm.append_right s.free
      exact hperm.nodup (List.nodup_cons.mp hnd).2

/-- Pool exhaustion inside the descent of `rtcpp::bst::insert` of a
not-present key: the null slot makes every attach branch return the
default-constructed cursor and `false`, with nothing written. -/
theorem rcInsLoop_exhaust {α : Type} [DecidableEq α] (cmp : α → α → Bool) (key : α) :
    ∀ (t : ATree α) (σ : Store α) (h pred succ f : Nat),
      reprB σ t pred succ = true → t.isLeaf = false → t.sizeA ≤ f →
      tFound cmp key t = none →
      rcInsLoop cmp σ h [] key f t.rootA = .ok ⟨σ, h, []⟩ none false := by
  intro t
  induction t with
  | leaf =>
    intro σ h pred succ f _ hlf
    simp [ATree.isLeaf] at hlf
  | node l a k r ihl ihr =>
    intro σ h pred succ f hrepr _ hf hnf
    obtain ⟨f', rfl⟩ : ∃ f', f = f' + 1 := ⟨f - 1, by simp [ATree.sizeA] at hf; omega⟩
    rcases reprB_node.mp hrepr with ⟨hkey, hL, hR⟩
    have hfl : l.sizeA ≤ f' := by simp [ATree.sizeA] at hf; omega
    have hfr : r.sizeA ≤ f' := by simp [ATree.sizeA] at hf; omega
    simp only [tFound] at hnf
    simp only [ATree.rootA]
    by_cases h1 : cmp key k = true
    · rw [h1, if_pos rfl] at hnf
      cases hl : l.isLeaf with
      | true =>
        rw [hl, if_pos rfl] at hL
        simp [rcInsLoop, hkey, h1, hL.1]
      | false =>
        rw [hl] at hnf
        simp only [Bool.false_eq_true, if_false] at hnf
        rw [hl, if_neg Bool.false_ne_true] at hL
        have hloop : rcInsLoop cmp σ h [] key (f' + 1) a =
            rcInsLoop cmp σ h [] key f' l.rootA := by
          simp [rcInsLoop, hkey, h1, hL.1, hL.2.1]
        rw [hloop]
        exact ihl σ h pred a f' hL.2.2 hl hfl hnf
    · rw [Bool.not_eq_true] at h1
      rw [h1, if_neg Bool.false_ne_true] at hnf
      by_cases h2 : cmp k key = true
      · rw [h2, if_pos rfl] at hnf
        cases hr : r.isLeaf with
        | true =>
          rw [hr, if_pos rfl] at hR
          simp [rcInsLoop, hkey, h1, h2, hR.1]
        | false =>
          rw [hr] at hnf
          simp only [Bool.false_eq_true, if_false] at hnf
          rw [hr, if_neg Bool.false_ne_true] at hR
          have hloop : rcInsLoop cmp σ h [] key (f' + 1) a =
              rcInsLoop cmp σ h [] key f' r.rootA := by
            simp [rcInsLoop, hkey, h1, h2, hR.1, hR.2.1]
          rw [hloop]
          exact ihr σ h a succ f' hR.2.2 hr hfr hnf
      · rw [Bool.not_eq_true] at h2
        rw [h2, if_neg Bool.false_ne_true] at hnf
        exact absurd hnf (by simp)

/-- `rtcpp::bst::insert` of a not-present key on an exhausted pool: the
pair `(const_iterator(), false)` comes back and the container state is
untouched. -/
theorem rcInsert_exhaust {α : Type} [DecidableEq α] (cmp : α → α → Bool)
    {s : RtSet α} {t : ATree α} (key : α) (f : Nat)
    (hInv : SInv s t) (hf : t.sizeA ≤ f) (hfree : s.free = [])
    (hnf : tFound cmp key t = none) :
    rcInsert cmp s key f = .ok s none false := by
  obtain ⟨hho, hrepr, _⟩ := hInv
  cases ht : t.isLeaf with
  | true =>
    obtain ⟨htag, _, _⟩ := (headOk_leaf ht).mp hho
    simp [rcInsert, htag, hasNullL_two, hfree]
  | false =>
    obtain ⟨htag, hll, _⟩ := (headOk_node ht).mp hho
    have hstep : rcInsert cmp s key f = rcInsLoop cmp s.store s.head s.free key f t.rootA := by
      simp [rcInsert, htag, hasNullL_zero, hll]
    rw [hstep, hfree,
      rcInsLoop_exhaust cmp key t s.store s.head s.head s.head f hrepr ht hf hnf]
    have : s = ⟨s.store, s.head, []⟩ := by
      cases s with
      | mk st hd fr =>
        simp at hfree
        rw [hfree]
    rw [← this]

/-- Repeated `rtcpp::bst::insert` of not-present keys on an exhausted
pool: every call fails the same way and the state never moves. -/
theorem rcRun_exhaust {α : Type} [DecidableEq α] (cmp : α → α → Bool)
    {s : RtSet α} {t : ATree α} (f : Nat) (hInv : SInv s t) (hf : t.sizeA ≤ f)
    (hfree : s.free = []) :
    ∀ (ks : List α), (∀ k ∈ ks, tFound cmp k t = none) →
      rcRun cmp f s ks = some (s, List.replicate ks.length false) := by
  intro ks
  induction ks with
  | nil => intro _; rfl
  | cons k ks ih =>
    intro hks
    have h1 := rcInsert_exhaust cmp k f hInv hf hfree
      (hks k (List.mem_cons_self _ _))
    have h2 := ih (fun k' hk' => hks k' (List.mem_cons_of_mem k hk'))
    simp [rcRun, h1, h2, List.replicate]


theorem allT_mem {α : Type} {P : α → Prop} :
    ∀ t : ATree α, allT P t ↔ ∀ x ∈ t.inKeys, P x := by
  intro t
  induction t with
  | leaf => simp [allT, ATree.inKeys]
  | node l a k r ihl ihr =>
    simp only [allT, ATree.inKeys, ihl, ihr, List.mem_append, List.mem_cons]
    constructor
    · rintro ⟨h1, h2, h3⟩ x (hx | hx | hx)
      · exact h1 x hx
      · exact hx ▸ h2
      · exact h3 x hx
    · intro h
      exact ⟨fun x hx => h x (Or.inl hx), h k (Or.inr (Or.inl rfl)),
        fun x hx => h x (Or.inr (Or.inr hx))⟩

theorem tInsT_allT {α : Type} {P : α → Prop} (cmp : α → α → Bool) (key : α) (q : Nat) :
    ∀ t : ATree α, allT P t → P key → allT P (tInsT cmp key q t) := by
  intro t
  induction t with
  | leaf =>
    intro _ hk
    exact ⟨trivial, hk, trivial⟩
  | node l a k r ihl ihr =>
    intro hall hk
    obtain ⟨h1, h2, h3⟩ := hall
    simp only [tInsT]
    by_cases hc1 : cmp key k = true
    · rw [hc1, if_pos rfl]
      cases hl : l.isLeaf with
      | true => exact ⟨⟨trivial, hk, trivial⟩, h2, h3⟩
      | false =>
        simp only [Bool.false_eq_true, if_false]
        exact ⟨ihl h1 hk, h2, h3⟩
    · rw [Bool.not_eq_true] at hc1
      rw [hc1, if_neg Bool.false_ne_true]
      by_cases hc2 : cmp k key = true
      · rw [hc2, if_pos rfl]
        cases hr : r.isLeaf with
        | true => exact ⟨h1, h2, trivial, hk, trivial⟩
        | false =>
          simp only [Bool.false_eq_true, if_false]
          exact ⟨h1, h2, ihr h3 hk⟩
      · rw [Bool.not_eq_true] at hc2
        rw [hc2, if_neg Bool.false_ne_true]
        exact ⟨h1, h2, h3⟩

theorem tInsT_bst {α : Type} (cmp : α → α → Bool) (key : α) (q : Nat) :
    ∀ t : ATree α, bstP cmp t → bstP cmp (tInsT cmp key q t) := by
  intro t
  induction t with
  | leaf =>
    intro _
    exact ⟨trivial, trivial, trivial, trivial⟩
  | node l a k r ihl ihr =>
    intro hbst
    obtain ⟨hbl, hbr, hall, halr⟩ := hbst
    simp only [tInsT]
    by_cases hc1 : cmp key k = true
    · rw [hc1, if_pos rfl]
      cases hl : l.isLeaf with
      | true =>
        exact ⟨⟨trivial, trivial, trivial, trivial⟩, hbr,
          ⟨trivial, hc1, trivial⟩, halr⟩
      | false =>
        simp only [Bool.false_eq_true, if_false]
        exact ⟨ihl hbl, hbr, tInsT_allT cmp key q l hall hc1, halr⟩
    · rw [Bool.not_eq_true] at hc1
      rw [hc1, if_neg Bool.false_ne_true]
      by_cases hc2 : cmp k key = true
      · rw [hc2, if_pos rfl]
        cases hr : r.isLeaf with
        | true =>
          exact ⟨hbl, ⟨trivial, trivial, trivial, trivial⟩, hall,
            trivial, hc2, trivial⟩
        | false =>
          simp only [Bool.false_eq_true, if_false]
          exact ⟨hbl, ihr hbr, hall, tInsT_allT cmp key q r halr hc2⟩
      · rw [Bool.not_eq_true] at hc2
        rw [hc2, if_neg Bool.false_ne_true]
        exact ⟨hbl, hbr, hall, halr⟩

/-- In a search tree the inorder keys are pairwise increasing under the
comparator — "strictly increasing" in the spec's sense. -/
theorem bst_pairwise {α : Type} (cmp : α → α → Bool)
    (htrans : ∀ a b c, cmp a b = true → cmp b c = true → cmp a c = true) :
    ∀ t : ATree α, bstP cmp t →
      List.Pairwise (fun a b => cmp a b = true) t.inKeys := by
  intro t
  induction t with
  | leaf => intro _; simp [ATree.inKeys]
  | node l a k r ihl ihr =>
    intro hbst
    obtain ⟨hbl, hbr, hall, halr⟩ := hbst
    have hml := (allT_mem l).mp hall
    have hmr := (allT_mem r).mp halr
    simp only [ATree.inKeys]
    rw [List.pairwise_append]
    refine ⟨ihl hbl, ?_, ?_⟩
    · rw [List.pairwise_cons]
      exact ⟨fun y hy => hmr y hy, ihr hbr⟩
    · intro x hx y hy
      rcases List.mem_cons.mp hy with hy | hy
      · rw [hy]
        exact hml x hx
      · exact htrans x k y (hml x hx) (hmr y hy)

/-- Searching again for a key just inserted finds the fresh node. -/
theorem tFound_after_ins {α : Type} (cmp : α → α → Bool) (key : α) (q : Nat)
    (hirr : cmp key key = false) :
    ∀ t : ATree α, tFound cmp key t = none →
      tFound cmp key (tInsT cmp key q t) = some (q, key) := by
  intro t
  induction t with
  | leaf =>
    intro _
    simp [tInsT, tFound, hirr, ATree.isLeaf]
  | node l a k r ihl ihr =>
    intro hnf
    simp only [tFound] at hnf
    simp only [tInsT]
    by_cases hc1 : cmp key k = true
    · rw [hc1, if_pos rfl] at hnf ⊢
      cases hl : l.isLeaf with
      | true =>
        simp [tFound, hc1, ATree.isLeaf, hirr]
      | false =>
        rw [hl] at hnf
        simp only [Bool.false_eq_true, if_false] at hnf
        have hne := (tInsT_rootA cmp key q (t := l) hl).2
        simp only [Bool.false_eq_true, if_false, tFound, hc1, if_pos rfl, hne]
        exact ihl hnf
    · rw [Bool.not_eq_true] at hc1
      rw [hc1, if_neg Bool.false_ne_true] at hnf ⊢
      by_cases hc2 : cmp k key = true
      · rw [hc2, if_pos rfl] at hnf ⊢
        cases hr : r.isLeaf with
        | true =>
          simp [tFound, hc1, hc2, ATree.isLeaf, hirr]
        | false =>
          rw [hr] at hnf
          simp only [Bool.false_eq_true, if_false] at hnf
          have hne := (tInsT_rootA cmp key q (t := r) hr).2
          simp only [Bool.false_eq_true, if_false, tFound, hc1, hc2, hne]
          exact ihr hnf
      · rw [Bool.not_eq_true] at hc2
        rw [hc2, if_neg Bool.false_ne_true] at hnf
        exact absurd hnf (by simp)


theorem tInsT_sizeA {α : Type} {cmp : α → α → Bool} {key : α} {q : Nat}
    {t : ATree α} (hnf : tFound cmp key t = none) :
    (tInsT cmp key q t).sizeA = t.sizeA + 1 := by
  have h := (tInsT_inAddrs_perm cmp key q t hnf).length_eq
  rw [length_inAddrs] at h
  rw [h]
  simp [length_inAddrs]

theorem tInsT_mem_inKeys {α : Type} {cmp : α → α → Bool} {key : α} {q : Nat}
    {t : ATree α} (hnf : tFound cmp key t = none) (x : α) :
    x ∈ (tInsT cmp key q t).inKeys ↔ x = key ∨ x ∈ t.inKeys := by
  rw [(tInsT_inKeys_perm cmp key q t hnf).mem_iff]
  simp

/-- Inserting a key sequence within capacity: the run succeeds, the
invariant and search-tree property persist, blocks are conserved, old
keys survive, new keys all come from the input, and every input key is
represented by an equivalent element. -/
theorem rtRun_sim {α : Type} [DecidableEq α] (cmp : α → α → Bool)
    (hirr : ∀ a : α, cmp a a = false) :
    ∀ (keys : List α) (s : RtSet α) (t : ATree α) (f : Nat),
      SInv s t → bstP cmp t → keys.length ≤ s.free.length →
      t.sizeA + keys.length ≤ f →
      ∃ s' t' flags, rtRun cmp f s keys = some (s', flags) ∧ SInv s' t' ∧
        bstP cmp t' ∧ s'.head = s.head ∧
        t'.sizeA + s'.free.length = t.sizeA + s.free.length ∧
        t'.sizeA ≤ t.sizeA + keys.length ∧
        (∀ x ∈ t.inKeys, x ∈ t'.inKeys) ∧
        (∀ x ∈ t'.inKeys, x ∈ t.inKeys ∨ x ∈ keys) ∧
        (∀ y ∈ keys, ∃ x ∈ t'.inKeys, equivC cmp x y) := by
  intro keys
  induction keys with
  | nil =>
    intro s t f hInv hbst _ _
    exact ⟨s, t, [], rfl, hInv, hbst, rfl, rfl, by simp, fun x hx => hx,
      fun x hx => Or.inl hx, by simp⟩
  | cons k ks ih =>
    intro s t f hInv hbst hcap hf
    have hft : t.sizeA ≤ f := by simp at hf; omega
    obtain ⟨S1, S2, S3⟩ := rtInsert_sim cmp s t k f hInv hft
    cases hfound : tFound cmp k t with
    | some ck =>
      obtain ⟨c, k'⟩ := ck
      have hins := S1 c k' hfound
      obtain ⟨hcm, hkm, he1, he2⟩ := tFound_mem cmp k t c k' hfound
      have hInv' : SInv ⟨s.store, s.head, s.free⟩ t := hInv
      obtain ⟨s', t', flags, hrun', hI', hb', hh', hsz', hbd', hmono', hsub', hcov'⟩ :=
        ih ⟨s.store, s.head, s.free⟩ t f hInv' hbst (by simp at hcap ⊢; omega)
          (by simp at hf ⊢; omega)
      refine ⟨s', t', false :: flags, ?_, hI', hb', hh', hsz',
        by simp; omega, hmono', ?_, ?_⟩
      · simp only [rtRun, hins, hrun']
      · intro x hx
        rcases hsub' x hx with hx | hx
        · exact Or.inl hx
        · exact Or.inr (List.mem_cons_of_mem k hx)
      · intro y hy
        rcases List.mem_cons.mp hy with hy | hy
        · subst hy
          exact ⟨k', hmono' k' hkm, he2, he1⟩
        · exact hcov' y hy
    | none =>
      obtain ⟨q, rest, hfree⟩ : ∃ q rest, s.free = q :: rest := by
        cases hfr : s.free with
        | nil => rw [hfr] at hcap; simp at hcap
        | cons q rest => exact ⟨q, rest, rfl⟩
      obtain ⟨σ', hins, hInv', hframe⟩ := S3 q rest hfound hfree
      have hb1 : bstP cmp (tInsT cmp k q t) := tInsT_bst cmp k q t hbst
      have hsz1 : (tInsT cmp k q t).sizeA = t.sizeA + 1 := tInsT_sizeA hfound
      obtain ⟨s', t', flags, hrun', hI', hb', hh', hsz', hbd', hmono', hsub', hcov'⟩ :=
        ih ⟨σ', s.head, rest⟩ (tInsT cmp k q t) f hInv' hb1
          (by
            dsimp only
            rw [hfree] at hcap
            simp at hcap
            omega)
          (by rw [hsz1]; simp at hf; omega)
      refine ⟨s', t', true :: flags, ?_, hI', hb', hh', ?_, ?_, ?_, ?_, ?_⟩
      · simp only [rtRun, hins, hrun']
      · have h8 : s.free.length = rest.length + 1 := by rw [hfree]; rfl
        rw [hsz1] at hsz'
        dsimp only at hsz'
        omega
      · rw [hsz1] at hbd'
        simp
        omega
      · intro x hx
        exact hmono' x ((tInsT_mem_inKeys hfound x).mpr (Or.inr hx))
      · intro x hx
        rcases hsub' x hx with hx | hx
        · rcases (tInsT_mem_inKeys hfound x).mp hx with hx | hx
          · exact Or.inr (hx ▸ List.mem_cons_self k ks)
          · exact Or.inl hx
        · exact Or.inr (List.mem_cons_of_mem k hx)
      · intro y hy
        rcases List.mem_cons.mp hy with hy | hy
        · subst hy
          exact ⟨y, hmono' y ((tInsT_mem_inKeys hfound y).mpr (Or.inl rfl)),
            hirr y, hirr y⟩
        · exact hcov' y hy


theorem SInv_mk {α : Type} [DecidableEq α] {s : RtSet α} {t : ATree α}
    (h1 : headOk s.store s.head t = true)
    (h2 : reprB s.store t s.head s.head = true)
    (h3 : (s.head :: t.inAddrs ++ s.free).Nodup) : SInv s t := ⟨h1, h2, h3⟩

/-- C1: inserting any key sequence into a set whose pool has enough
blocks and then iterating from `begin()` to `end()` yields a sequence
that is strictly increasing under the comparator, consists of input
keys only, and represents every input key up to comparator
equivalence — i.e. exactly the distinct keys of the input in increasing
order; equivalent re-insertions add nothing. -/
theorem c1_insert_iterate_sorted_unique {α : Type} [DecidableEq α]
    (cmp : α → α → Bool)
    (hirr : ∀ a : α, cmp a a = false)
    (htrans : ∀ a b c, cmp a b = true → cmp b c = true → cmp a c = true)
    (keys : List α) (σ : Store α) (h : Nat) (blocks : List Nat)
    (hnd : (h :: blocks).Nodup) (hcap : keys.length ≤ blocks.length)
    (f sf n : Nat) (hf : keys.length ≤ f) (hsf : keys.length + 1 ≤ sf)
    (hn : keys.length ≤ n) :
    ∃ s0 s' flags, rtNew σ (h :: blocks) = some s0 ∧
      rtRun cmp f s0 keys = some (s', flags) ∧
      List.Pairwise (fun a b => cmp a b = true) (rtToList s' sf n) ∧
      (∀ x ∈ rtToList s' sf n, x ∈ keys) ∧
      (∀ y ∈ keys, ∃ x ∈ rtToList s' sf n, equivC cmp x y) := by
  obtain ⟨s0, hnew, hh0, hf0, hI0⟩ := rtNew_SInv σ h blocks hnd
  obtain ⟨s', t', flags, hrun, hI', hb', _, _, hbd', _, hsub', hcov'⟩ :=
    rtRun_sim cmp hirr keys s0 (.leaf : ATree α) f hI0 trivial
      (by rw [hf0]; exact hcap) (by simpa [ATree.sizeA] using hf)
  have hbd : t'.sizeA ≤ keys.length := by simpa [ATree.sizeA] using hbd'
  have hlist : rtToList s' sf n = t'.inKeys :=
    rtToList_eq hI' (by omega) (by omega)
  refine ⟨s0, s', flags, hnew, hrun, ?_, ?_, ?_⟩
  · rw [hlist]
    exact bst_pairwise cmp htrans t' hb'
  · intro x hx
    rw [hlist] at hx
    rcases hsub' x hx with hx | hx
    · simp [ATree.inKeys] at hx
    · exact hx
  · intro y hy
    obtain ⟨x, hx, he⟩ := hcov' y hy
    exact ⟨x, by rw [hlist]; exact hx, he⟩

theorem c1_insert_iterate_sorted_unique_witness :
    ([5, 3, 7, 3] : List Int).length ≤ [11, 12, 13, 14].length ∧
    (∃ s0 s' flags, rtNew σ0 (10 :: [11, 12, 13, 14]) = some s0 ∧
      rtRun cmpInt 10 s0 [5, 3, 7, 3] = some (s', flags) ∧
      List.Pairwise (fun a b => cmpInt a b = true) (rtToList s' 10 10) ∧
      (∀ x ∈ rtToList s' 10 10, x ∈ ([5, 3, 7, 3] : List Int)) ∧
      (∀ y ∈ ([5, 3, 7, 3] : List Int), ∃ x ∈ rtToList s' 10 10, equivC cmpInt x y)) :=
  ⟨by decide,
    c1_insert_iterate_sorted_unique cmpInt
      (fun a => by simp [cmpInt])
      (fun a b c hab hbc => by
        simp only [cmpInt, decide_eq_true_eq] at hab hbc ⊢
        omega)
      [5, 3, 7, 3] σ0 10 [11, 12, 13, 14] (by decide) (by decide)
      10 10 10 (by decide) (by decide) (by decide)⟩

/-- C2 counterexample: a set over a one-block pool (the block went to the
head sentinel, the free list is empty).  Inserting the absent key 5 does
not return the pair `(end, false)`: the allocator's `std::bad_alloc`
escapes `rt::set::insert` (the `oom` outcome — and since `insert` is
declared `noexcept`, the program would terminate). -/
theorem c2_exhausted_insert_counterexample :
    rtNew σ0 [10] = some (mkIntSet 10 []) ∧
    rtInsert cmpInt (mkIntSet 10 []) 5 1 = .oom := ⟨rfl, rfl⟩

/-- C2 (amended): on an exhausted pool and a not-present key,
`rt::set::insert` propagates the `std::bad_alloc` thrown by
`rt::allocator::allocate` instead of returning `(end, false)`, while
`rtcpp::bst::insert` — whose allocator signals exhaustion with a null
slot — returns `false` paired with a default-constructed cursor, not the
end cursor, leaving the container untouched. -/
theorem c2_exhausted_insert_amended {α : Type} [DecidableEq α]
    (cmp : α → α → Bool) (s : RtSet α) (t : ATree α) (key : α) (f : Nat)
    (hInv : SInv s t) (hf : t.sizeA ≤ f) (hfree : s.free = [])
    (hnf : tFound cmp key t = none) :
    rtInsert cmp s key f = .oom ∧ rcInsert cmp s key f = .ok s none false :=
  ⟨(rtInsert_sim cmp s t key f hInv hf).2.1 hnf hfree,
    rcInsert_exhaust cmp key f hInv hf hfree hnf⟩

theorem c2_exhausted_insert_amended_witness :
    rtInsert cmpInt (mkIntSet 10 []) 5 1 = .oom ∧
    rcInsert cmpInt (mkIntSet 10 []) 5 1 = .ok (mkIntSet 10 []) none false :=
  c2_exhausted_insert_amended cmpInt (mkIntSet 10 []) (.leaf : ATree Int) 5 1
    (SInv_mk (by decide) (by decide) (by decide)) (by decide) rfl rfl

/-- C3 (code bug): on the singleton set `{5}` (head sentinel in block 10,
the element node in block 11), `clear()` deallocates the element block
and resets the head so that the set is empty with `size() == 0` — but
the destroy trace is `[10]`: the only key-slot destroyed is the head
sentinel's uninitialized one, and the key 5 in block 11 is never
destroyed, because the loop destroys `q->key` (the successor's slot)
while deallocating `p`. -/
theorem c3_clear_destroy_trace :
    rtInsert cmpInt (mkIntSet 10 [11]) 5 3 = .ok c3s1 [] 11 true ∧
    (c3s1 11).key = 5 ∧
    (mkIntSet 10 [11]).head = 10 ∧
    (rtClear ⟨c3s1, 10, []⟩ 3 3).2.1 = [10] ∧
    (rtClear ⟨c3s1, 10, []⟩ 3 3).2.2 = [11] ∧
    (rtClear ⟨c3s1, 10, []⟩ 3 3).1.free = [11] ∧
    rtToList (rtClear ⟨c3s1, 10, []⟩ 3 3).1 3 3 = [] ∧
    rtSize (rtClear ⟨c3s1, 10, []⟩ 3 3).1 3 3 = 0 ∧
    rtEmpty (rtClear ⟨c3s1, 10, []⟩ 3 3).1 3 = true := by
  refine ⟨rfl, by decide, rfl, by decide, by decide, by decide, by decide,
    by decide, by decide⟩

/-- C4: after a successful `insert(k)` that placed `k` in the fresh block
`q`, a second `insert(k)` returns the cursor to that very node with
`false`, allocating nothing and leaving both the store and the free list
exactly as they were; `find(k)` returns the same cursor and
`count(k) == 1`. -/
theorem c4_duplicate_insert {α : Type} [DecidableEq α] (cmp : α → α → Bool)
    (hirr : ∀ a : α, cmp a a = false)
    (s : RtSet α) (t : ATree α) (k : α) (q : Nat) (rest : List Nat) (f : Nat)
    (hInv : SInv s t) (hfree : s.free = q :: rest)
    (hnf : tFound cmp k t = none) (hf : t.sizeA + 1 ≤ f) :
    ∃ σ', rtInsert cmp s k f = .ok σ' rest q true ∧
      rtInsert cmp ⟨σ', s.head, rest⟩ k f = .ok σ' rest q false ∧
      rtFind cmp ⟨σ', s.head, rest⟩ k f = q ∧
      rtCount cmp ⟨σ', s.head, rest⟩ k f = 1 := by
  obtain ⟨σ', hins, hInv', _⟩ :=
    (rtInsert_sim cmp s t k f hInv (by omega)).2.2 q rest hnf hfree
  have hfound' : tFound cmp k (tInsT cmp k q t) = some (q, k) :=
    tFound_after_ins cmp k q (hirr k) t hnf
  have hsz : (tInsT cmp k q t).sizeA = t.sizeA + 1 := tInsT_sizeA hnf
  refine ⟨σ', hins, ?_, ?_, ?_⟩
  · exact (rtInsert_sim cmp ⟨σ', s.head, rest⟩ (tInsT cmp k q t) k f hInv'
      (by omega)).1 q k hfound'
  · rw [rtFind_sim cmp k f hInv' (by omega), hfound']
  · rw [rtCount_sim cmp k f hInv' (by omega), hfound']

theorem c4_duplicate_insert_witness :
    ∃ σ', rtInsert cmpInt (mkIntSet 10 [11, 12]) 5 3 = .ok σ' [12] 11 true ∧
      rtInsert cmpInt ⟨σ', 10, [12]⟩ 5 3 = .ok σ' [12] 11 false ∧
      rtFind cmpInt ⟨σ', 10, [12]⟩ 5 3 = 11 ∧
      rtCount cmpInt ⟨σ', 10, [12]⟩ 5 3 = 1 :=
  c4_duplicate_insert cmpInt (fun a => by simp [cmpInt])
    (mkIntSet 10 [11, 12]) (.leaf : ATree Int) 5 11 [12] 3
    (SInv_mk (by decide) (by decide) (by decide)) rfl rfl (by decide)

/-- C5: with the pool's blocks enumerated by `blocks`, every block is
either on the free list or held by exactly one live node (the head
sentinel or a tree node) — never both, never neither; a successful
insert moves exactly the popped block from the free list into the tree;
`clear` moves every tree node's block back to the free list, leaving
only the head block live. -/
theorem c5_block_partition {α : Type} [DecidableEq α] (cmp : α → α → Bool)
    (s : RtSet α) (t : ATree α) (blocks : List Nat) (key : α) (f sf fu : Nat)
    (hInv : SInv s t)
    (hperm : (s.head :: t.inAddrs ++ s.free).Perm blocks)
    (hf : t.sizeA ≤ f) (hsf : t.sizeA + 1 ≤ sf) (hfu : t.sizeA + 1 ≤ fu) :
    (∀ b ∈ blocks, (b ∈ s.free ∧ b ∉ s.head :: t.inAddrs) ∨
       (b ∉ s.free ∧ b ∈ s.head :: t.inAddrs)) ∧
    (∀ q rest, tFound cmp key t = none → s.free = q :: rest →
      ∃ σ', rtInsert cmp s key f = .ok σ' rest q true ∧
        (tInsT cmp key q t).inAddrs.Perm (q :: t.inAddrs) ∧
        (s.head :: (tInsT cmp key q t).inAddrs ++ rest).Perm blocks) ∧
    ((rtClear s sf fu).1.free.Perm (t.inAddrs ++ s.free) ∧
      (s.head :: ([] : List Nat) ++ (rtClear s sf fu).1.free).Perm blocks) := by
  obtain ⟨hho, hrepr, hnd⟩ := hInv
  refine ⟨?_, ?_, ?_, ?_⟩
  · intro b hb
    have hbm : b ∈ s.head :: t.inAddrs ++ s.free := hperm.mem_iff.mpr hb
    have hnd' := hnd
    by_cases hbf : b ∈ s.free
    · left
      refine ⟨hbf, fun hbl => ?_⟩
      rcases List.mem_cons.mp hbl with hbl | hbl
      · exact head_not_free_of_SInv ⟨hho, hrepr, hnd⟩ (hbl ▸ hbf)
      · exact fresh_of_SInv ⟨hho, hrepr, hnd⟩ b hbf hbl
    · right
      refine ⟨hbf, ?_⟩
      rcases List.mem_cons.mp hbm with hbm | hbm
      · exact List.mem_cons.mpr (Or.inl hbm)
      · rcases List.mem_append.mp hbm with hbm | hbm
        · exact List.mem_cons.mpr (Or.inr hbm)
        · exact absurd hbm hbf
  · intro q rest hnf hfree
    obtain ⟨σ', hins, _, _⟩ :=
      (rtInsert_sim cmp s t key f ⟨hho, hrepr, hnd⟩ hf).2.2 q rest hnf hfree
    have hp1 : (tInsT cmp key q t).inAddrs.Perm (q :: t.inAddrs) :=
      tInsT_inAddrs_perm cmp key q t hnf
    refine ⟨σ', hins, hp1, ?_⟩
    have h3 : (s.head :: (tInsT cmp key q t).inAddrs ++ rest).Perm
        (s.head :: t.inAddrs ++ q :: rest) := by
      refine List.Perm.cons s.head ?_
      have h4 : ((tInsT cmp key q t).inAddrs ++ rest).Perm
          (q :: (t.inAddrs ++ rest)) := by
        have := hp1.append_right rest
        simpa using this
      exact h4.trans List.perm_middle.symm
    rw [hfree] at hperm
    exact h3.trans hperm
  · rw [rtClear_sim ⟨hho, hrepr, hnd⟩ hsf hfu]
    exact (List.reverse_perm t.inAddrs).append_right s.free
  · rw [rtClear_sim ⟨hho, hrepr, hnd⟩ hsf hfu]
    refine List.Perm.trans ?_ hperm
    simp only [List.nil_append]
    exact List.Perm.cons s.head
      ((List.reverse_perm t.inAddrs).append_right s.free)

theorem c5_block_partition_witness :
    (∀ b ∈ [10, 11, 12], (b ∈ (mkIntSet 10 [11, 12]).free ∧
        b ∉ (mkIntSet 10 [11, 12]).head :: (ATree.leaf : ATree Int).inAddrs) ∨
      (b ∉ (mkIntSet 10 [11, 12]).free ∧
        b ∈ (mkIntSet 10 [11, 12]).head :: (ATree.leaf : ATree Int).inAddrs)) ∧
    (∀ q rest, tFound cmpInt 5 (ATree.leaf : ATree Int) = none →
      (mkIntSet 10 [11, 12]).free = q :: rest →
      ∃ σ', rtInsert cmpInt (mkIntSet 10 [11, 12]) 5 3 = .ok σ' rest q true ∧
        (tInsT cmpInt 5 q (ATree.leaf : ATree Int)).inAddrs.Perm
          (q :: (ATree.leaf : ATree Int).inAddrs) ∧
        ((mkIntSet 10 [11, 12]).head ::
          (tInsT cmpInt 5 q (ATree.leaf : ATree Int)).inAddrs ++ rest).Perm
          [10, 11, 12]) ∧
    ((rtClear (mkIntSet 10 [11, 12]) 3 3).1.free.Perm
      ((ATree.leaf : ATree Int).inAddrs ++ (mkIntSet 10 [11, 12]).free) ∧
      ((mkIntSet 10 [11, 12]).head :: ([] : List Nat) ++
        (rtClear (mkIntSet 10 [11, 12]) 3 3).1.free).Perm [10, 11, 12]) :=
  c5_block_partition cmpInt (mkIntSet 10 [11, 12]) (.leaf : ATree Int)
    [10, 11, 12] 5 3 3 3 (SInv_mk (by decide) (by decide) (by decide))
    (by decide) (by decide) (by decide) (by decide)

/-- C9: when `rtcpp::bst::insert` fails because the pool is exhausted,
the container state is literally unchanged — so every subsequent read
(find, count, iteration) sees the same contents — and any further
sequence of inserts of not-yet-present keys keeps failing with the same
unchanged state, until a `clear` intervenes. -/
theorem c9_exhausted_insert_atomic {α : Type} [DecidableEq α]
    (cmp : α → α → Bool) (s : RtSet α) (t : ATree α) (f : Nat)
    (hInv : SInv s t) (hf : t.sizeA ≤ f) (hfree : s.free = []) :
    (∀ key, tFound cmp key t = none →
      rcInsert cmp s key f = .ok s none false) ∧
    (∀ ks : List α, (∀ k ∈ ks, tFound cmp k t = none) →
      rcRun cmp f s ks = some (s, List.replicate ks.length false)) :=
  ⟨fun key hnf => rcInsert_exhaust cmp key f hInv hf hfree hnf,
    fun ks hks => rcRun_exhaust cmp f hInv hf hfree ks hks⟩

theorem c9_exhausted_insert_atomic_witness :
    (∀ key, tFound cmpInt key (ATree.leaf : ATree Int) = none →
      rcInsert cmpInt (mkIntSet 10 []) key 1 = .ok (mkIntSet 10 []) none false) ∧
    (∀ ks : List Int, (∀ k ∈ ks, tFound cmpInt k (ATree.leaf : ATree Int) = none) →
      rcRun cmpInt 1 (mkIntSet 10 []) ks =
        some (mkIntSet 10 [], List.replicate ks.length false)) :=
  c9_exhausted_insert_atomic cmpInt (mkIntSet 10 []) (.leaf : ATree Int) 1
    (SInv_mk (by decide) (by decide) (by decide)) (by decide) rfl


theorem linkWrites_at (S base : Nat) (hS : 0 < S) :
    ∀ (m : Nat) (w : Nat → Nat) (i : Nat), 1 ≤ i → i ≤ m →
      linkWrites S base m w (base + i * S) = base + (i - 1) * S := by
  intro m
  induction m with
  | zero => intro w i h1 h2; omega
  | succ j ih =>
    intro w i h1 h2
    by_cases hij : i = j + 1
    · subst hij
      simp [linkWrites]
    · have hij' : i ≤ j := by omega
      have hne : base + i * S ≠ base + (j + 1) * S := by
        intro he
        have : i * S = (j + 1) * S := by omega
        have := Nat.eq_of_mul_eq_mul_right hS this
        exact hij this
      simp only [linkWrites, if_neg hne]
      exact ih w i h1 hij'

theorem linkWrites_other (S base : Nat) :
    ∀ (m : Nat) (w : Nat → Nat) (off : Nat),
      (∀ i, 1 ≤ i → i ≤ m → off ≠ base + i * S) →
      linkWrites S base m w off = w off := by
  intro m
  induction m with
  | zero => intro w off _; rfl
  | succ j ih =>
    intro w off hoff
    simp only [linkWrites, if_neg (hoff (j + 1) (by omega) (by omega))]
    exact ih w off (fun i h1 h2 => hoff i h1 (by omega))

/-- C6: constructing `node_stack<S>` over a buffer fails exactly when the
buffer is shorter than `3*sizeof(ptr) + 2*S` (noSpace) or the link count
is non-zero with a different recorded block size (wrongSize); a non-zero
count otherwise only gets incremented, with every other word untouched;
and on the 0 → 1 transition the free list is threaded through the block
region exactly once — count 1, recorded size, top of stack, and the
chain of previous-block links — with all other words untouched. -/
theorem c6_node_stack_ctor (S : Nat) (st : NsState) (hP : 0 < st.P) :
    (nsCtor S st = .error .noSpace ↔ st.n < 3 * st.P + 2 * S) ∧
    (nsCtor S st = .error .wrongSize ↔
      (3 * st.P + 2 * S ≤ st.n ∧ st.w 0 ≠ 0 ∧ st.w (3 * st.P) ≠ S)) ∧
    (3 * st.P + 2 * S ≤ st.n → st.w 0 ≠ 0 → st.w (3 * st.P) = S →
      nsCtor S st =
        .ok ⟨st.P, st.n, fun off => if off = 0 then st.w 0 + 1 else st.w off⟩) ∧
    (3 * st.P + 2 * S ≤ st.n → st.w 0 = 0 → st.P < S →
      ∃ st', nsCtor S st = .ok st' ∧ st'.P = st.P ∧ st'.n = st.n ∧
        st'.w 0 = 1 ∧ st'.w (3 * st.P) = S ∧
        st'.w st.P = 2 * st.P + ((st.n - 2 * st.P) / S - 1) * S ∧
        st'.w (2 * st.P) = 0 ∧
        (∀ i, 1 ≤ i → i ≤ (st.n - 2 * st.P) / S - 1 →
          st'.w (2 * st.P + i * S) = 2 * st.P + (i - 1) * S) ∧
        (∀ off, off ≠ 0 → off ≠ st.P → off ≠ 3 * st.P →
          (∀ i, i ≤ (st.n - 2 * st.P) / S - 1 → off ≠ 2 * st.P + i * S) →
          st'.w off = st.w off)) := by
  refine ⟨?_, ?_, ?_, ?_⟩
  · constructor
    · intro he
      by_contra hlt
      simp only [nsCtor, if_neg hlt] at he
      by_cases hc : st.w 0 ≠ 0
      · rw [if_pos hc] at he
        by_cases hs : st.w (3 * st.P) ≠ S
        · rw [if_pos hs] at he
          exact absurd he (by simp)
        · rw [if_neg hs] at he
          exact absurd he (by simp)
      · rw [if_neg hc] at he
        exact absurd he (by simp)
    · intro hlt
      simp [nsCtor, hlt]
  · constructor
    · intro he
      by_cases hlt : st.n < 3 * st.P + 2 * S
      · simp [nsCtor, hlt] at he
      · refine ⟨by omega, ?_, ?_⟩
        · by_contra hc
          have hc2 : st.w 0 = 0 := by omega
          simp [nsCtor, hlt, hc2] at he
        · by_cases hc : st.w 0 ≠ 0
          · by_contra hs
            have hs2 : st.w (3 * st.P) = S := by omega
            simp [nsCtor, hlt, hc, hs2] at he
          · have hc2 : st.w 0 = 0 := by omega
            simp [nsCtor, hlt, hc2] at he
    · rintro ⟨hge, hc, hs⟩
      have hlt : ¬ st.n < 3 * st.P + 2 * S := by omega
      simp [nsCtor, hlt, hc, hs]
  · intro hge hc hs
    have hlt : ¬ st.n < 3 * st.P + 2 * S := by omega
    simp [nsCtor, hlt, hc, hs]
  · intro hge hc hPS
    have hlt : ¬ st.n < 3 * st.P + 2 * S := by omega
    have hS : 0 < S := by omega
    have hm2 : 2 ≤ (st.n - 2 * st.P) / S := by
      rw [Nat.le_div_iff_mul_le hS]
      omega
    have hmlt : ¬ (st.n - 2 * st.P) / S < 2 := by omega
    have hr : linkStack S st.w (2 * st.P) (st.n - 2 * st.P) =
        (fun off => if off = 2 * st.P then 0
          else linkWrites S (2 * st.P) ((st.n - 2 * st.P) / S - 1) st.w off,
         2 * st.P + ((st.n - 2 * st.P) / S - 1) * S) := by
      simp only [linkStack]
      rw [if_neg hmlt]
    have hok : nsCtor S st = .ok ⟨st.P, st.n, fun off =>
        if off = 0 then 1
        else if off = 3 * st.P then S
        else if off = st.P then 2 * st.P + ((st.n - 2 * st.P) / S - 1) * S
        else if off = 2 * st.P then 0
        else linkWrites S (2 * st.P) ((st.n - 2 * st.P) / S - 1) st.w off⟩ := by
      simp only [nsCtor, if_neg hlt, hc, ne_eq, eq_self_iff_true, not_true,
        if_false, hr]
    refine ⟨_, hok, rfl, rfl, ?_, ?_, ?_, ?_, ?_, ?_⟩
    · rfl
    · show (if (3 * st.P) = 0 then 1
          else if (3 * st.P) = 3 * st.P then S
          else _) = S
      rw [if_neg (by omega), if_pos rfl]
    · show (if st.P = 0 then 1
          else if st.P = 3 * st.P then S
          else if st.P = st.P then 2 * st.P + ((st.n - 2 * st.P) / S - 1) * S
          else _) = _
      rw [if_neg (by omega), if_neg (by omega), if_pos rfl]
    · show (if 2 * st.P = 0 then 1
          else if 2 * st.P = 3 * st.P then S
          else if 2 * st.P = st.P then 2 * st.P + ((st.n - 2 * st.P) / S - 1) * S
          else if 2 * st.P = 2 * st.P then 0
          else linkWrites S (2 * st.P) ((st.n - 2 * st.P) / S - 1) st.w (2 * st.P)) = 0
      rw [if_neg (by omega), if_neg (by omega), if_neg (by omega), if_pos rfl]
    · intro i h1 h2
      have hiS : st.P < i * S := by
        calc st.P < S := hPS
        _ ≤ i * S := Nat.le_mul_of_pos_left S h1
      show (if 2 * st.P + i * S = 0 then 1
          else if 2 * st.P + i * S = 3 * st.P then S
          else if 2 * st.P + i * S = st.P then
            2 * st.P + ((st.n - 2 * st.P) / S - 1) * S
          else if 2 * st.P + i * S = 2 * st.P then 0
          else linkWrites S (2 * st.P) ((st.n - 2 * st.P) / S - 1) st.w
            (2 * st.P + i * S)) = 2 * st.P + (i - 1) * S
      rw [if_neg (by omega), if_neg (by omega), if_neg (by omega),
        if_neg (by omega)]
      exact linkWrites_at S (2 * st.P) hS ((st.n - 2 * st.P) / S - 1) st.w i h1 h2
    · intro off h0 hsp h3p hblk
      have h2p : off ≠ 2 * st.P := by
        have h9 := hblk 0 (by omega)
        simpa using h9
      show (if off = 0 then 1
          else if off = 3 * st.P then S
          else if off = st.P then 2 * st.P + ((st.n - 2 * st.P) / S - 1) * S
          else if off = 2 * st.P then 0
          else linkWrites S (2 * st.P) ((st.n - 2 * st.P) / S - 1) st.w off) = st.w off
      rw [if_neg h0, if_neg h3p, if_neg hsp, if_neg h2p]
      exact linkWrites_other S (2 * st.P) ((st.n - 2 * st.P) / S - 1) st.w off
        (fun i hi1 hi2 => hblk i hi2)


theorem c6_node_stack_ctor_witness :
    0 < nsFixture.P ∧
    ((nsCtor 32 nsFixture = .error .noSpace ↔
        nsFixture.n < 3 * nsFixture.P + 2 * 32) ∧
     (nsCtor 32 nsFixture = .error .wrongSize ↔
        (3 * nsFixture.P + 2 * 32 ≤ nsFixture.n ∧ nsFixture.w 0 ≠ 0 ∧
         nsFixture.w (3 * nsFixture.P) ≠ 32)) ∧
     (3 * nsFixture.P + 2 * 32 ≤ nsFixture.n → nsFixture.w 0 ≠ 0 →
       nsFixture.w (3 * nsFixture.P) = 32 →
       nsCtor 32 nsFixture = .ok ⟨nsFixture.P, nsFixture.n,
         fun off => if off = 0 then nsFixture.w 0 + 1 else nsFixture.w off⟩) ∧
     (3 * nsFixture.P + 2 * 32 ≤ nsFixture.n → nsFixture.w 0 = 0 →
       nsFixture.P < 32 →
       ∃ st', nsCtor 32 nsFixture = .ok st' ∧ st'.P = nsFixture.P ∧
         st'.n = nsFixture.n ∧
         st'.w 0 = 1 ∧ st'.w (3 * nsFixture.P) = 32 ∧
         st'.w nsFixture.P =
           2 * nsFixture.P + ((nsFixture.n - 2 * nsFixture.P) / 32 - 1) * 32 ∧
         st'.w (2 * nsFixture.P) = 0 ∧
         (∀ i, 1 ≤ i → i ≤ (nsFixture.n - 2 * nsFixture.P) / 32 - 1 →
           st'.w (2 * nsFixture.P + i * 32) = 2 * nsFixture.P + (i - 1) * 32) ∧
         (∀ off, off ≠ 0 → off ≠ nsFixture.P → off ≠ 3 * nsFixture.P →
           (∀ i, i ≤ (nsFixture.n - 2 * nsFixture.P) / 32 - 1 →
             off ≠ 2 * nsFixture.P + i * 32) →
           st'.w off = nsFixture.w off))) :=
  ⟨by decide, c6_node_stack_ctor 32 nsFixture (by decide)⟩

/-- One `std::equal` walk over two chains of equal length compares key for
key; it answers `true` exactly when the two key sequences coincide. -/
theorem stdEqualLoop_aligned {α : Type} [DecidableEq α] {σ1 : Store α} {h1 : Nat}
    {σ2 : Store α} {h2 sf : Nat} :
    ∀ (lA lB : List Nat) (n : Nat), chainS σ1 sf lA h1 → chainS σ2 sf lB h2 →
      h1 ∉ lA → lA.length = lB.length → lA.length ≤ n →
      (stdEqualLoop σ1 h1 σ2 sf n (lA.headD h1) (lB.headD h2) = true ↔
        lA.map (fun a => (σ1 a).key) = lB.map (fun b => (σ2 b).key)) := by
  intro lA
  induction lA with
  | nil =>
    intro lB n _ _ _ hlen _
    have hlB : lB = [] := List.length_eq_zero.mp (by simpa using hlen.symm)
    subst hlB
    cases n <;> simp [stdEqualLoop]
  | cons a lA ih =>
    intro lB n hcA hcB hmem hlen hn
    obtain ⟨b, lB', rfl⟩ : ∃ b lB', lB = b :: lB' := by
      cases lB with
      | nil => simp at hlen
      | cons b lB' => exact ⟨b, lB', rfl⟩
    obtain ⟨n', rfl⟩ : ∃ n', n = n' + 1 := ⟨n - 1, by simp at hn; omega⟩
    have ha : a ≠ h1 := fun he => hmem (by rw [he]; exact List.mem_cons_self _ _)
    obtain ⟨hstepA, hrestA⟩ := hcA
    obtain ⟨hstepB, hrestB⟩ := hcB
    simp only [List.headD_cons, stdEqualLoop]
    rw [if_neg ha, hstepA, hstepB]
    have hih := ih lB' n' hrestA hrestB
      (fun hm => hmem (List.mem_cons_of_mem a hm))
      (by simpa using hlen) (by simp at hn; omega)
    simp only [List.map_cons, Bool.and_eq_true, beq_iff_eq, hih, List.cons.injEq]

/-- C8 (amended core): under the invariant, `operator==` answers `true`
exactly when the two inorder key sequences are equal — element equality
via the key type's `operator==`, not comparator equivalence. -/
theorem rtSetEq_iff {α : Type} [DecidableEq α] {A B : RtSet α} {tA tB : ATree α}
    (hA : SInv A tA) (hB : SInv B tB) {sf n : Nat}
    (hsfA : tA.sizeA + 1 ≤ sf) (hsfB : tB.sizeA + 1 ≤ sf)
    (hnA : tA.sizeA ≤ n) (hnB : tB.sizeA ≤ n) :
    (rtSetEq A B sf n = true ↔ tA.inKeys = tB.inKeys) := by
  obtain ⟨hhoA, hreprA, hndA⟩ := hA
  obtain ⟨hhoB, hreprB, hndB⟩ := hB
  have hszA : rtSize A sf n = tA.sizeA := rtSize_eq ⟨hhoA, hreprA, hndA⟩ hsfA hnA
  have hszB : rtSize B sf n = tB.sizeA := rtSize_eq ⟨hhoB, hreprB, hndB⟩ hsfB hnB
  have hmemA : A.head ∉ tA.inAddrs :=
    fun hm => (List.nodup_cons.mp hndA).1 (List.mem_append_left _ hm)
  rw [rtSetEq, headSucc hhoA hreprA sf hsfA, headSucc hhoB hreprB sf hsfB,
    Bool.and_eq_true, beq_iff_eq, hszA, hszB]
  by_cases hsz : tA.sizeA = tB.sizeA
  · have hlen : tA.inAddrs.length = tB.inAddrs.length := by
      rw [length_inAddrs, length_inAddrs]; exact hsz
    have heq := stdEqualLoop_aligned tA.inAddrs tB.inAddrs n
      (repr_chain tA A.head A.head sf hreprA hsfA)
      (repr_chain tB B.head B.head sf hreprB hsfB) hmemA hlen
      (by rw [length_inAddrs]; exact hnA)
    rw [repr_keysMap tA A.head A.head hreprA,
      repr_keysMap tB B.head B.head hreprB] at heq
    constructor
    · intro h
      exact heq.mp h.2
    · intro hk
      exact ⟨hsz, heq.mpr hk⟩
  · constructor
    · intro h
      exact absurd h.1 hsz
    · intro hk
      have hl : tA.inKeys.length = tB.inKeys.length := by rw [hk]
      rw [length_inKeys, length_inKeys] at hl
      exact absurd hl hsz

/-- When the parent's llink is a thread, `insert_node_left` performs
exactly the writes of `attach_node_left` on the popped block: the fix-up
branch is dead (the new node inherits the parent's set LBIT), and the
stale tag bits of the free block are absorbed by the final `|= RBIT`. -/
theorem pInsL_spec {α : Type} (s : PBst α) (p : Nat) (key : α) (sf : Nat)
    (hav : s.avail ≠ 0) (hL : hasNullL (s.store p).tag = true)
    (hpq : p ≠ s.avail) :
    pInsL s p key sf =
      (⟨attachL (upd s.store s.avail { s.store s.avail with key := key }) p s.avail,
        s.head, (s.store s.avail).llink⟩, s.avail, true) := by
  have hqp : s.avail ≠ p := Ne.symm hpq
  have hcond : hasNullL ((((s.store s.avail).tag &&& 1) |||
      ((s.store p).tag &&& 2)) ||| 1) = true := by
    rw [hasNullL_lor, hasNullL_lor, hasNullL_clearL, hasNullL_clearR, hL,
      hasNullL_one]
    rfl
  simp only [pInsL, if_neg hav, upd_apply, if_pos rfl, if_neg hpq, if_neg hqp,
    reduceIte]
  rw [hcond]
  simp only [Bool.not_true, Bool.false_eq_true, if_false, Prod.mk.injEq,
    PBst.mk.injEq, and_true, true_and]
  funext x
  by_cases hxq : x = s.avail
  · subst hxq
    rw [attachL_at_q _ hpq]
    have habs : ((((s.store s.avail).tag &&& 1) ||| ((s.store p).tag &&& 2)) ||| 1) =
        ((s.store p).tag &&& 2) ||| 1 :=
      lor_one_absorb _ _ (land_one_cases _)
    simp only [upd_apply, if_pos rfl, if_neg hqp, if_neg hpq, ite_true, ite_false]
    rw [habs]
  · by_cases hxp : x = p
    · subst hxp
      rw [attachL_at_p]
      simp only [upd_apply, if_neg hxq, if_pos rfl, if_neg hpq, ite_true, ite_false]
    · rw [attachL_at_other _ hxp hxq]
      simp only [upd_apply, if_neg hxq, if_neg hxp, ite_true, ite_false]

/-- Mirror of `pInsL_spec`: when the parent's rlink is a thread,
`insert_node_right` performs exactly the writes of `attach_node_right`. -/
theorem pInsR_spec {α : Type} (s : PBst α) (p : Nat) (key : α) (sf : Nat)
    (hav : s.avail ≠ 0) (hR : hasNullR (s.store p).tag = true)
    (hpq : p ≠ s.avail) :
    pInsR s p key sf =
      (⟨attachR (upd s.store s.avail { s.store s.avail with key := key }) p s.avail,
        s.head, (s.store s.avail).llink⟩, s.avail, true) := by
  have hqp : s.avail ≠ p := Ne.symm hpq
  have hcond : hasNullR ((((s.store s.avail).tag &&& 2) |||
      ((s.store p).tag &&& 1)) ||| 2) = true := by
    rw [hasNullR_lor, hasNullR_lor, hasNullR_clearR, hasNullR_clearL, hR,
      hasNullR_two]
    rfl
  simp only [pInsR, if_neg hav, upd_apply, if_pos rfl, if_neg hpq, if_neg hqp,
    reduceIte]
  rw [hcond]
  simp only [Bool.not_true, Bool.false_eq_true, if_false, Prod.mk.injEq,
    PBst.mk.injEq, and_true, true_and]
  funext x
  by_cases hxq : x = s.avail
  · subst hxq
    rw [attachR_at_q _ hpq]
    have habs : ((((s.store s.avail).tag &&& 2) ||| ((s.store p).tag &&& 1)) ||| 2) =
        ((s.store p).tag &&& 1) ||| 2 :=
      lor_two_absorb _ _ (land_two_cases _)
    simp only [upd_apply, if_pos rfl, if_neg hqp, if_neg hpq, ite_true, ite_false]
    rw [habs]
  · by_cases hxp : x = p
    · subst hxp
      rw [attachR_at_p]
      simp only [upd_apply, if_neg hxq, if_pos rfl, if_neg hpq, ite_true, ite_false]
    · rw [attachR_at_other _ hxp hxq]
      simp only [upd_apply, if_neg hxq, if_neg hxp, ite_true, ite_false]

theorem rootA_mem {α : Type} {t : ATree α} (h : t.isLeaf = false) :
    t.rootA ∈ t.inAddrs := by
  cases t with
  | leaf => simp [ATree.isLeaf] at h
  | node l a k r => simp [ATree.rootA, ATree.inAddrs]

/-- Inside a represented subtree every non-thread link lands back in the
subtree: the insert descent can never leave the tree's slots. -/
theorem repr_links_closed {α : Type} [DecidableEq α] {σ : Store α} :
    ∀ (t : ATree α) (pred succ : Nat), reprB σ t pred succ = true →
      ∀ p ∈ t.inAddrs,
        (hasNullL (σ p).tag = false → (σ p).llink ∈ t.inAddrs) ∧
        (hasNullR (σ p).tag = false → (σ p).rlink ∈ t.inAddrs) := by
  intro t
  induction t with
  | leaf => intro _ _ _ p hp; simp [ATree.inAddrs] at hp
  | node l a k r ihl ihr =>
    intro pred succ hrepr p hp
    rcases reprB_node.mp hrepr with ⟨_, hL, hR⟩
    simp only [ATree.inAddrs, List.mem_append, List.mem_cons] at hp
    rcases hp with hp | hp | hp
    · cases hl : l.isLeaf with
      | true =>
        rw [isLeaf_iff] at hl
        subst hl
        simp [ATree.inAddrs] at hp
      | false =>
        rw [hl, if_neg Bool.false_ne_true] at hL
        have hih := ihl pred a hL.2.2 p hp
        constructor
        · intro hf
          simp only [ATree.inAddrs, List.mem_append]
          exact Or.inl (hih.1 hf)
        · intro hf
          simp only [ATree.inAddrs, List.mem_append]
          exact Or.inl (hih.2 hf)
    · subst hp
      constructor
      · intro hf
        cases hl : l.isLeaf with
        | true =>
          rw [hl, if_pos rfl] at hL
          rw [hL.1] at hf
          cases hf
        | false =>
          rw [hl, if_neg Bool.false_ne_true] at hL
          rw [hL.2.1]
          simp only [ATree.inAddrs, List.mem_append]
          exact Or.inl (rootA_mem hl)
      · intro hf
        cases hr : r.isLeaf with
        | true =>
          rw [hr, if_pos rfl] at hR
          rw [hR.1] at hf
          cases hf
        | false =>
          rw [hr, if_neg Bool.false_ne_true] at hR
          rw [hR.2.1]
          simp only [ATree.inAddrs, List.mem_append, List.mem_cons]
          exact Or.inr (Or.inr (rootA_mem hr))
    · cases hr : r.isLeaf with
      | true =>
        rw [isLeaf_iff] at hr
        subst hr
        simp [ATree.inAddrs] at hp
      | false =>
        rw [hr, if_neg Bool.false_ne_true] at hR
        have hih := ihr a succ hR.2.2 p hp
        constructor
        · intro hf
          simp only [ATree.inAddrs, List.mem_append, List.mem_cons]
          exact Or.inr (Or.inr (hih.1 hf))
        · intro hf
          simp only [ATree.inAddrs, List.mem_append, List.mem_cons]
          exact Or.inr (Or.inr (hih.2 hf))

/-- The avail-stack reading only looks at the slots on the stack. -/
theorem availRepr_congr {α : Type} {σ σ' : Store α} :
    ∀ (l : List Nat) (a : Nat), (∀ x ∈ l, σ' x = σ x) →
      availRepr σ' a l = availRepr σ a l := by
  intro l
  induction l with
  | nil => intro a _; rfl
  | cons q rest ih =>
    intro a h
    simp only [availRepr]
    rw [h q (List.mem_cons_self _ _),
      ih _ (fun x hx => h x (List.mem_cons_of_mem _ hx))]

/-- On a shared store the prototype's descent loop takes exactly the path
of `rt::set`'s and performs the same writes (`pInsL_spec`/`pInsR_spec`);
only the exhaustion answer differs — `(&head, false)` instead of the
throw `rt` turns into `oom`. -/
theorem pInsLoop_match {α : Type} [LinearOrder α] (s : PBst α) (key : α)
    (sf : Nat) (fl : List Nat) (A : List Nat)
    (hrep : availRepr s.store s.avail fl = true)
    (hclosed : ∀ p ∈ A,
      (hasNullL (s.store p).tag = false → (s.store p).llink ∈ A) ∧
      (hasNullR (s.store p).tag = false → (s.store p).rlink ∈ A))
    (hdisj : ∀ x ∈ fl, x ∉ A) :
    ∀ (f p : Nat), p ∈ A →
      pInsLoop s key sf f p =
        (match rtInsLoop (fun a b : α => decide (a < b)) s.store fl key f p with
         | .out => .out
         | .oom => .ok s s.head false
         | .ok _ _ c false => .ok s c false
         | .ok σ' _ c true => .ok ⟨σ', s.head, (s.store c).llink⟩ c true) := by
  intro f
  induction f with
  | zero => intro p _; rfl
  | succ f ihf =>
    intro p hpA
    simp only [pInsLoop, rtInsLoop, gt_iff_lt]
    cases hd1 : (decide (key < (s.store p).key) : Bool) with
    | true =>
      rw [if_pos rfl, if_pos rfl]
      cases h2 : hasNullL (s.store p).tag with
      | false =>
        rw [Bool.not_false, if_pos rfl, if_pos rfl]
        exact ihf ((s.store p).llink) ((hclosed p hpA).1 h2)
      | true =>
        rw [Bool.not_true, if_neg Bool.false_ne_true, if_neg Bool.false_ne_true]
        cases hfl : fl with
        | nil =>
          have hav : s.avail = 0 := by
            rw [hfl] at hrep
            simpa [availRepr] using hrep
          simp [pInsL, hav]
        | cons q rest =>
          have h3 : s.avail = q ∧ q ≠ 0 := by
            rw [hfl] at hrep
            simp only [availRepr, Bool.and_eq_true, beq_iff_eq, bne_iff_ne] at hrep
            exact ⟨hrep.1.1, hrep.1.2⟩
          have hpq : p ≠ s.avail := by
            rw [h3.1]
            intro he
            exact hdisj q (by rw [hfl]; exact List.mem_cons_self _ _) (he ▸ hpA)
          rw [pInsL_spec s p key sf (by rw [h3.1]; exact h3.2) h2 hpq, h3.1]
    | false =>
      simp only [Bool.false_eq_true, if_false]
      cases hd2 : (decide ((s.store p).key < key) : Bool) with
      | true =>
        rw [if_pos rfl, if_pos rfl]
        cases h2 : hasNullR (s.store p).tag with
        | false =>
          rw [Bool.not_false, if_pos rfl, if_pos rfl]
          exact ihf ((s.store p).rlink) ((hclosed p hpA).2 h2)
        | true =>
          rw [Bool.not_true, if_neg Bool.false_ne_true, if_neg Bool.false_ne_true]
          cases hfl : fl with
          | nil =>
            have hav : s.avail = 0 := by
              rw [hfl] at hrep
              simpa [availRepr] using hrep
            simp [pInsR, hav]
          | cons q rest =>
            have h3 : s.avail = q ∧ q ≠ 0 := by
              rw [hfl] at hrep
              simp only [availRepr, Bool.and_eq_true, beq_iff_eq, bne_iff_ne] at hrep
              exact ⟨hrep.1.1, hrep.1.2⟩
            have hpq : p ≠ s.avail := by
              rw [h3.1]
              intro he
              exact hdisj q (by rw [hfl]; exact List.mem_cons_self _ _) (he ▸ hpA)
            rw [pInsR_spec s p key sf (by rw [h3.1]; exact h3.2) h2 hpq, h3.1]
      | false =>
        simp only [Bool.false_eq_true, if_false]

/-- One prototype insert computes exactly what one `rt::set` insert does
on the shared store — same cursor, same flag, same writes — except that
pool exhaustion answers `(&head, false)` where `rt` throws. -/
theorem pInsert_match {α : Type} [LinearOrder α] (s : PBst α) (key : α)
    (sf f : Nat) (fl : List Nat) (t : ATree α)
    (hInv : SInv ⟨s.store, s.head, fl⟩ t)
    (hrep : availRepr s.store s.avail fl = true) :
    pInsert s key sf f =
      (match rtInsert (fun a b : α => decide (a < b)) ⟨s.store, s.head, fl⟩ key f with
       | .out => .out
       | .oom => .ok s s.head false
       | .ok _ _ c false => .ok s c false
       | .ok σ' _ c true => .ok ⟨σ', s.head, (s.store c).llink⟩ c true) := by
  obtain ⟨hho, hrepr, hnd⟩ := hInv
  dsimp only at hho hrepr hnd
  cases ht : t.isLeaf with
  | true =>
    obtain ⟨htag, hll, hrl⟩ := (headOk_leaf ht).mp hho
    simp only [pInsert, rtInsert, htag, hasNullL_two, if_true]
    cases hfl : fl with
    | nil =>
      have hav : s.avail = 0 := by
        rw [hfl] at hrep
        simpa [availRepr] using hrep
      simp [pInsL, hav]
    | cons q rest =>
      have h3 : s.avail = q ∧ q ≠ 0 := by
        rw [hfl] at hrep
        simp only [availRepr, Bool.and_eq_true, beq_iff_eq, bne_iff_ne] at hrep
        exact ⟨hrep.1.1, hrep.1.2⟩
      have hhq : s.head ≠ s.avail := by
        rw [h3.1]
        intro he
        have hmem : s.head ∈ fl := by rw [hfl, he]; exact List.mem_cons_self _ _
        exact (List.nodup_cons.mp (by
          simpa [ATree.isLeaf, isLeaf_iff.mp ht, ATree.inAddrs] using hnd)).1 hmem
      rw [pInsL_spec s s.head key sf (by rw [h3.1]; exact h3.2)
        (by rw [htag]; decide) hhq, h3.1]
  | false =>
    obtain ⟨htag, hll, hrl⟩ := (headOk_node ht).mp hho
    simp only [pInsert, rtInsert, htag, hasNullL_zero, Bool.false_eq_true,
      if_false, hll]
    exact pInsLoop_match s key sf fl t.inAddrs hrep
      (repr_links_closed t s.head s.head hrepr)
      (fresh_of_SInv (s := ⟨s.store, s.head, fl⟩) (t := t) ⟨hho, hrepr, hnd⟩)
      f t.rootA (rootA_mem ht)

/-- The prototype's `begin()` lands on the leftmost node (the head when
the tree is empty). -/
theorem pBegin_eq {α : Type} [DecidableEq α] {s : PBst α} {t : ATree α}
    (hho : headOk s.store s.head t = true)
    (hrepr : reprB s.store t s.head s.head = true) (sf : Nat)
    (hsf : t.sizeA + 1 ≤ sf) : pBegin s sf = t.inAddrs.headD s.head := by
  cases ht : t.isLeaf with
  | true =>
    obtain ⟨htag, hll, hrl⟩ := (headOk_leaf ht).mp hho
    rw [isLeaf_iff] at ht
    subst ht
    obtain ⟨sf', rfl⟩ : ∃ sf', sf = sf' + 1 := ⟨sf - 1, by omega⟩
    simp [pBegin, hll, downLeft, htag, hasNullL_two, ATree.inAddrs]
  | false =>
    obtain ⟨htag, hll, hrl⟩ := (headOk_node ht).mp hho
    rw [leftA_headD ht]
    simp only [pBegin, hll]
    exact downLeft_leftmost t s.head s.head sf hrepr ht (by omega)

/-- Reading the prototype through its iterators yields the tree's inorder
key sequence. -/
theorem pToList_eq {α : Type} [DecidableEq α] {s : PBst α} {t : ATree α}
    (hho : headOk s.store s.head t = true)
    (hrepr : reprB s.store t s.head s.head = true)
    (hnd : (s.head :: t.inAddrs).Nodup)
    {sf n : Nat} (hsf : t.sizeA + 1 ≤ sf) (hn : t.sizeA ≤ n) :
    pToList s sf n = t.inKeys := by
  have hmem : s.head ∉ t.inAddrs := (List.nodup_cons.mp hnd).1
  rw [pToList, pBegin_eq hho hrepr sf hsf,
    iterK_chain t.inAddrs n (repr_chain t s.head s.head sf hrepr hsf) hmem
      (by rw [length_inAddrs]; exact hn),
    repr_keysMap t s.head s.head hrepr]

/-- Running the same key sequence through the prototype and through
`rt::set` (same comparator, capacity not exceeded) keeps the two states
in lock step: identical stores and heads, identical flag sequences, the
free blocks threaded on the prototype's avail stack in the very order of
`rt`'s free list. -/
theorem pRun_match {α : Type} [LinearOrder α] :
    ∀ (keys : List α) (s : PBst α) (fl : List Nat) (t : ATree α) (sf f : Nat),
      SInv ⟨s.store, s.head, fl⟩ t → availRepr s.store s.avail fl = true →
      keys.length ≤ fl.length → t.sizeA + keys.length ≤ f →
      ∃ s' flags ps' t',
        rtRun (fun a b : α => decide (a < b)) f ⟨s.store, s.head, fl⟩ keys =
          some (s', flags) ∧
        pRun sf f s keys = some (ps', flags) ∧
        ps'.store = s'.store ∧ ps'.head = s'.head ∧ s'.head = s.head ∧
        SInv s' t' ∧ t'.sizeA ≤ t.sizeA + keys.length ∧
        availRepr s'.store ps'.avail s'.free = true := by
  intro keys
  induction keys with
  | nil =>
    intro s fl t sf f hInv hrep _ _
    exact ⟨⟨s.store, s.head, fl⟩, [], s, t, rfl, rfl, rfl, rfl, rfl, hInv,
      by omega, hrep⟩
  | cons k ks ih =>
    intro s fl t sf f hInv hrep hcap hf
    have hft : t.sizeA ≤ f := by simp at hf; omega
    obtain ⟨S1, S2, S3⟩ :=
      rtInsert_sim (fun a b : α => decide (a < b)) ⟨s.store, s.head, fl⟩ t k f
        hInv hft
    have hmatch := pInsert_match s k sf f fl t hInv hrep
    cases hfound : tFound (fun a b : α => decide (a < b)) k t with
    | some ck =>
      obtain ⟨c, k'⟩ := ck
      have hins := S1 c k' hfound
      obtain ⟨s', flags, ps', t', hrt', hp', hst', hh', hh0', hI', hsz', hrep'⟩ :=
        ih s fl t sf f hInv hrep (by simp at hcap; omega) (by simp at hf ⊢; omega)
      refine ⟨s', false :: flags, ps', t', ?_, ?_, hst', hh', hh0', hI', ?_, hrep'⟩
      · simp only [rtRun, hins, hrt']
      · rw [hins] at hmatch
        simp only [pRun, hmatch, hp']
      · simp only [List.length_cons]
        omega
    | none =>
      obtain ⟨q, rest, hfl⟩ : ∃ q rest, fl = q :: rest := by
        cases hfr : fl with
        | nil => rw [hfr] at hcap; simp at hcap
        | cons q rest => exact ⟨q, rest, rfl⟩
      obtain ⟨σ', hins, hInv', hframe⟩ := S3 q rest hfound (by rw [hfl])
      have hqfl : q ∈ fl := by rw [hfl]; exact List.mem_cons_self _ _
      have hq3 : s.avail = q ∧ q ≠ 0 ∧
          availRepr s.store (s.store q).llink rest = true := by
        have h4 := hrep
        rw [hfl] at h4
        simp only [availRepr, Bool.and_eq_true, beq_iff_eq, bne_iff_ne] at h4
        exact ⟨h4.1.1, h4.1.2, h4.2⟩
      have hrest : ∀ x ∈ rest, σ' x = s.store x := by
        intro x hx
        have hxfl : x ∈ fl := by rw [hfl]; exact List.mem_cons_of_mem _ hx
        refine hframe x
          (fresh_of_SInv (s := ⟨s.store, s.head, fl⟩) (t := t) hInv x hxfl) ?_ ?_
        · intro he
          have hnd := hInv.2.2
          have hflnd : fl.Nodup :=
            ((List.sublist_append_right t.inAddrs fl).cons s.head).nodup hnd
          rw [hfl] at hflnd
          exact (List.nodup_cons.mp hflnd).1 (he ▸ hx)
        · intro he
          exact head_not_free_of_SInv (s := ⟨s.store, s.head, fl⟩) (t := t) hInv
            (he ▸ hxfl)
      have hrep1 : availRepr σ' (s.store q).llink rest = true := by
        rw [availRepr_congr rest _ hrest]
        exact hq3.2.2
      obtain ⟨s', flags, ps', t', hrt', hp', hst', hh', hh0', hI', hsz', hrep'⟩ :=
        ih ⟨σ', s.head, (s.store q).llink⟩ rest (tInsT (fun a b : α => decide (a < b)) k q t)
          sf f hInv' hrep1
          (by rw [hfl] at hcap; simp at hcap ⊢; omega)
          (by rw [tInsT_sizeA hfound]; simp at hf ⊢; omega)
      refine ⟨s', true :: flags, ps', t', ?_, ?_, hst', hh', hh0', hI', ?_, hrep'⟩
      · simp only [rtRun, hins, hrt']
      · rw [hins] at hmatch
        simp only [pRun, hmatch, hp']
      · rw [tInsT_sizeA hfound] at hsz'
        simp only [List.length_cons]
        omega

/-- C7: inserting into an empty set hangs the new root under the head with
llink and rlink both aimed at the head and both LBIT and RBIT set; and
attaching a new node — rt's attach_node_left/right, or the prototype's
insert_node_left/right under insert's precondition that the parent's
corresponding link is a thread — rewrites only the new node and the
parent's one affected link: every other slot, and the parent's other link
and key, are untouched, so no other node's thread target changes. -/
theorem c7_single_insert_and_attach_frame {α : Type} [DecidableEq α]
    (cmp : α → α → Bool) (s : RtSet α) (key : α) (f q : Nat) (rest : List Nat)
    (hE : SInv s ATree.leaf) (hfree : s.free = q :: rest) :
    (∃ σ', rtInsert cmp s key f = .ok σ' rest q true ∧
      (σ' q).llink = s.head ∧ (σ' q).rlink = s.head ∧
      hasNullL (σ' q).tag = true ∧ hasNullR (σ' q).tag = true) ∧
    (∀ (σ : Store α) (p n x : Nat), x ≠ p → x ≠ n →
      attachL σ p n x = σ x ∧ attachR σ p n x = σ x) ∧
    (∀ (σ : Store α) (p n : Nat),
      (attachL σ p n p).rlink = (σ p).rlink ∧ (attachL σ p n p).key = (σ p).key ∧
      (attachR σ p n p).llink = (σ p).llink ∧ (attachR σ p n p).key = (σ p).key) ∧
    (∀ (sp : PBst α) (p : Nat) (k : α) (sf : Nat), sp.avail ≠ 0 →
      hasNullL (sp.store p).tag = true → p ≠ sp.avail →
      (∀ x, x ≠ p → x ≠ sp.avail → (pInsL sp p k sf).1.store x = sp.store x) ∧
      ((pInsL sp p k sf).1.store p).rlink = (sp.store p).rlink ∧
      ((pInsL sp p k sf).1.store p).key = (sp.store p).key) ∧
    (∀ (sp : PBst α) (p : Nat) (k : α) (sf : Nat), sp.avail ≠ 0 →
      hasNullR (sp.store p).tag = true → p ≠ sp.avail →
      (∀ x, x ≠ p → x ≠ sp.avail → (pInsR sp p k sf).1.store x = sp.store x) ∧
      ((pInsR sp p k sf).1.store p).llink = (sp.store p).llink ∧
      ((pInsR sp p k sf).1.store p).key = (sp.store p).key) := by
  obtain ⟨hho, hrepr, hnd⟩ := hE
  obtain ⟨htag, hll, hrl⟩ :=
    (headOk_leaf (show (ATree.leaf : ATree α).isLeaf = true from rfl)).mp hho
  have hhq : s.head ≠ q := by
    intro he
    have hmem : s.head ∈ s.free := by rw [hfree, he]; exact List.mem_cons_self _ _
    exact (List.nodup_cons.mp (by simpa [ATree.inAddrs] using hnd)).1 hmem
  refine ⟨?_, ?_, ?_, ?_, ?_⟩
  · refine ⟨attachL (upd s.store q { s.store q with key := key }) s.head q,
      ?_, ?_, ?_, ?_, ?_⟩
    · simp [rtInsert, htag, hasNullL_two, hfree]
    · rw [attachL_at_q _ hhq, upd_other _ _ _ hhq]
      exact hll
    · rw [attachL_at_q _ hhq]
    · rw [attachL_at_q _ hhq, upd_other _ _ _ hhq, htag]
      show hasNullL (2 &&& 2 ||| 1) = true
      decide
    · rw [attachL_at_q _ hhq, upd_other _ _ _ hhq, htag]
      show hasNullR (2 &&& 2 ||| 1) = true
      decide
  · intro σ p n x hxp hxn
    exact ⟨attachL_at_other σ hxp hxn, attachR_at_other σ hxp hxn⟩
  · intro σ p n
    rw [attachL_at_p, attachR_at_p]
    exact ⟨rfl, rfl, rfl, rfl⟩
  · intro sp p k sf hav hL hpq
    rw [pInsL_spec sp p k sf hav hL hpq]
    refine ⟨?_, ?_, ?_⟩
    · intro x hxp hxq
      show attachL (upd sp.store sp.avail { sp.store sp.avail with key := k })
        p sp.avail x = sp.store x
      rw [attachL_at_other _ hxp hxq, upd_other _ _ _ hxq]
    · show (attachL (upd sp.store sp.avail { sp.store sp.avail with key := k })
        p sp.avail p).rlink = (sp.store p).rlink
      rw [attachL_at_p, upd_other _ _ _ hpq]
    · show (attachL (upd sp.store sp.avail { sp.store sp.avail with key := k })
        p sp.avail p).key = (sp.store p).key
      rw [attachL_at_p, upd_other _ _ _ hpq]
  · intro sp p k sf hav hR hpq
    rw [pInsR_spec sp p k sf hav hR hpq]
    refine ⟨?_, ?_, ?_⟩
    · intro x hxp hxq
      show attachR (upd sp.store sp.avail { sp.store sp.avail with key := k })
        p sp.avail x = sp.store x
      rw [attachR_at_other _ hxp hxq, upd_other _ _ _ hxq]
    · show (attachR (upd sp.store sp.avail { sp.store sp.avail with key := k })
        p sp.avail p).llink = (sp.store p).llink
      rw [attachR_at_p, upd_other _ _ _ hpq]
    · show (attachR (upd sp.store sp.avail { sp.store sp.avail with key := k })
        p sp.avail p).key = (sp.store p).key
      rw [attachR_at_p, upd_other _ _ _ hpq]

theorem c7_single_insert_and_attach_frame_witness :
    SInv (mkIntSet 10 [11]) ATree.leaf ∧
    ((∃ σ', rtInsert cmpInt (mkIntSet 10 [11]) (5 : Int) 3 = .ok σ' [] 11 true ∧
      (σ' 11).llink = 10 ∧ (σ' 11).rlink = 10 ∧
      hasNullL (σ' 11).tag = true ∧ hasNullR (σ' 11).tag = true) ∧
    (∀ (σ : Store Int) (p n x : Nat), x ≠ p → x ≠ n →
      attachL σ p n x = σ x ∧ attachR σ p n x = σ x) ∧
    (∀ (σ : Store Int) (p n : Nat),
      (attachL σ p n p).rlink = (σ p).rlink ∧ (attachL σ p n p).key = (σ p).key ∧
      (attachR σ p n p).llink = (σ p).llink ∧ (attachR σ p n p).key = (σ p).key) ∧
    (∀ (sp : PBst Int) (p : Nat) (k : Int) (sf : Nat), sp.avail ≠ 0 →
      hasNullL (sp.store p).tag = true → p ≠ sp.avail →
      (∀ x, x ≠ p → x ≠ sp.avail → (pInsL sp p k sf).1.store x = sp.store x) ∧
      ((pInsL sp p k sf).1.store p).rlink = (sp.store p).rlink ∧
      ((pInsL sp p k sf).1.store p).key = (sp.store p).key) ∧
    (∀ (sp : PBst Int) (p : Nat) (k : Int) (sf : Nat), sp.avail ≠ 0 →
      hasNullR (sp.store p).tag = true → p ≠ sp.avail →
      (∀ x, x ≠ p → x ≠ sp.avail → (pInsR sp p k sf).1.store x = sp.store x) ∧
      ((pInsR sp p k sf).1.store p).llink = (sp.store p).llink ∧
      ((pInsR sp p k sf).1.store p).key = (sp.store p).key)) := by
  have hE : SInv (mkIntSet 10 [11]) ATree.leaf := ⟨by decide, by decide, by decide⟩
  exact ⟨hE,
    c7_single_insert_and_attach_frame cmpInt (mkIntSet 10 [11]) 5 3 11 [] hE rfl⟩

/-- C8 (counterexample): two singleton sets built with the absolute-value
comparator — one holding `1`, the other `-1` — have equal sizes and
comparator-equivalent inorder sequences, yet `operator==` answers `false`:
`std::equal` compares elements with the key type's `operator==`, not with
`!comp(a,b) && !comp(b,a)`. -/
theorem c8_comparator_equiv_counterexample :
    rtInsert cmpAbs (mkIntSet 10 [11]) 1 3 = .ok c8A [] 11 true ∧
    rtInsert cmpAbs (mkIntSet 20 [21]) (-1) 3 = .ok c8B [] 21 true ∧
    rtSize ⟨c8A, 10, []⟩ 3 3 = rtSize ⟨c8B, 20, []⟩ 3 3 ∧
    List.Forall₂ (equivC cmpAbs) (rtToList ⟨c8A, 10, []⟩ 3 3)
      (rtToList ⟨c8B, 20, []⟩ 3 3) ∧
    rtSetEq ⟨c8A, 10, []⟩ ⟨c8B, 20, []⟩ 3 3 = false := by
  refine ⟨rfl, rfl, rfl, ?_, rfl⟩
  show List.Forall₂ (equivC cmpAbs) [(1 : Int)] [(-1 : Int)]
  exact List.Forall₂.cons ⟨rfl, rfl⟩ List.Forall₂.nil

/-- C8 (amended): under the representation invariant, `operator==` answers
`true` exactly when the two inorder key sequences are equal — element
equality via the key type's `operator==` (the size check is subsumed). -/
theorem c8_operator_eq_amended {α : Type} [DecidableEq α] {A B : RtSet α}
    {tA tB : ATree α} (hA : SInv A tA) (hB : SInv B tB) {sf n : Nat}
    (hsfA : tA.sizeA + 1 ≤ sf) (hsfB : tB.sizeA + 1 ≤ sf)
    (hnA : tA.sizeA ≤ n) (hnB : tB.sizeA ≤ n) :
    (rtSetEq A B sf n = true ↔ tA.inKeys = tB.inKeys) :=
  rtSetEq_iff hA hB hsfA hsfB hnA hnB

theorem c8_operator_eq_amended_witness :
    SInv ⟨c8A, 10, []⟩ (ATree.node ATree.leaf 11 (1 : Int) ATree.leaf) ∧
    SInv ⟨c8B, 20, []⟩ (ATree.node ATree.leaf 21 (-1 : Int) ATree.leaf) ∧
    (rtSetEq ⟨c8A, 10, []⟩ ⟨c8B, 20, []⟩ 3 3 = true ↔
      (ATree.node ATree.leaf 11 (1 : Int) ATree.leaf).inKeys =
        (ATree.node ATree.leaf 21 (-1 : Int) ATree.leaf).inKeys) := by
  have hSA : SInv ⟨c8A, 10, []⟩ (ATree.node ATree.leaf 11 (1 : Int) ATree.leaf) :=
    ⟨by decide, by decide, by decide⟩
  have hSB : SInv ⟨c8B, 20, []⟩ (ATree.node ATree.leaf 21 (-1 : Int) ATree.leaf) :=
    ⟨by decide, by decide, by decide⟩
  exact ⟨hSA, hSB, c8_operator_eq_amended hSA hSB (by decide) (by decide)
    (by decide) (by decide)⟩

/-- C10: within pool capacity the stand-alone prototype `bst<T>` and the
allocator-backed `rt::set` (default `less` comparator) produce identical
results on any integer-key sequence: the same `inserted` flag for every
insertion and the same final inorder key sequence. -/
theorem c10_prototype_rt_equivalence {α : Type} [LinearOrder α]
    (keys : List α) (s : PBst α) (fl : List Nat) (t : ATree α) (sf f n : Nat)
    (hInv : SInv ⟨s.store, s.head, fl⟩ t)
    (hrep : availRepr s.store s.avail fl = true)
    (hcap : keys.length ≤ fl.length)
    (hf : t.sizeA + keys.length ≤ f)
    (hsf : t.sizeA + keys.length + 1 ≤ sf)
    (hn : t.sizeA + keys.length ≤ n) :
    ∃ s' ps' flags,
      rtRun (fun a b : α => decide (a < b)) f ⟨s.store, s.head, fl⟩ keys =
        some (s', flags) ∧
      pRun sf f s keys = some (ps', flags) ∧
      pToList ps' sf n = rtToList s' sf n := by
  obtain ⟨s', flags, ps', t', hrt, hp, hst, hh, hh0, hI', hsz, hrep'⟩ :=
    pRun_match keys s fl t sf f hInv hrep hcap hf
  refine ⟨s', ps', flags, hrt, hp, ?_⟩
  obtain ⟨hho', hrepr', hnd'⟩ := hI'
  have h1 : rtToList s' sf n = t'.inKeys :=
    rtToList_eq ⟨hho', hrepr', hnd'⟩ (by omega) (by omega)
  have hndh : (s'.head :: t'.inAddrs).Nodup :=
    ((List.sublist_append_left t'.inAddrs s'.free).cons₂ s'.head).nodup hnd'
  have h2 : pToList ps' sf n = t'.inKeys := by
    refine pToList_eq (t := t') ?_ ?_ ?_ (by omega) (by omega)
    · rw [hst, hh]
      exact hho'
    · rw [hst, hh]
      exact hrepr'
    · rw [hh]
      exact hndh
  rw [h1, h2]

theorem c10_prototype_rt_equivalence_witness :
    SInv ⟨c10s.store, c10s.head, [11, 12]⟩ ATree.leaf ∧
    availRepr c10s.store c10s.avail [11, 12] = true ∧
    ∃ s' ps' flags,
      rtRun (fun a b : Int => decide (a < b)) 2 ⟨c10s.store, c10s.head, [11, 12]⟩
        [5, 3] = some (s', flags) ∧
      pRun 3 2 c10s [5, 3] = some (ps', flags) ∧
      pToList ps' 3 2 = rtToList s' 3 2 := by
  have hI : SInv ⟨c10s.store, c10s.head, [11, 12]⟩ ATree.leaf :=
    ⟨by decide, by decide, by decide⟩
  have hr : availRepr c10s.store c10s.avail [11, 12] = true := by decide
  exact ⟨hI, hr, c10_prototype_rt_equivalence [5, 3] c10s [11, 12] ATree.leaf
    3 2 2 hI hr (by decide) (by decide) (by decide) (by decide)⟩


end Rt
